import Mathlib

set_option maxHeartbeats 1000000

/-! Shallow embedding of `src/tomer/src/left_to_right_evaluator.cpp`.

Doubles are modeled as exact rationals (`ℚ`), C++ `int` as `ℤ`, sizes and
indices as `ℕ`.  Checked vector access (`std::vector::at`), which throws
`std::out_of_range`, is modeled with `Option` (`none` = the exception
escaping) in `sample_new_topic`, whose scan loops are the only places the
source can actually run past the end of an array on inputs the rest of the
code produces; the other routines access arrays under in-bounds
preconditions of the source (noted where they occur) and are modeled with
`List.getD` / `List.set`.  The uniform sampler is an external service; it
is modeled as a stream `draws : ℕ → ℚ` together with a cursor
(`rng_index`) that advances by one on every call of `sampler_.next()`.
The `log` used by `evaluate` is likewise external (from `<cmath>`): it is
passed in as an uninterpreted function `lg : ℚ → ℚ`. -/

/-- The immutable model data handed to the `LeftToRightEvaluator`
constructor: topic count, per-topic Dirichlet weights `alpha_`, symmetric
word prior `beta_`, global per-topic token counts `topic_counts_` and the
per-word topic-count profiles `type_topic_counts_`. -/

structure Model where
  n_topics : ℕ
  alpha : List ℚ
  beta : ℚ
  topic_counts : List ℤ
  type_topic_counts : List (List ℤ)

namespace Model

/-- `beta_sum_ = n_topics * beta` (constructor, line 22). -/
def beta_sum (m : Model) : ℚ := (m.n_topics : ℚ) * m.beta

/-- `alpha_sum_ = accumulate(alpha, 0.0)` (constructor, line 21). -/
def alpha_sum (m : Model) : ℚ := m.alpha.sum

/-- The per-topic denominator `topic_counts_.at(topic) + beta_sum_`. -/
def denom (m : Model) (t : ℕ) : ℚ := (m.topic_counts.getD t 0 : ℚ) + m.beta_sum

/-- `smoothing_only_mass_` as accumulated by the constructor loop
(lines 24-28). -/
def smoothing_only_mass (m : Model) : ℚ :=
  ((List.range m.n_topics).map (fun t => m.alpha.getD t 0 * m.beta / m.denom t)).sum

/-- The cached-coefficient array as the constructor leaves it
(line 27): `alpha_.at(topic) / denom` for every topic. -/
def cachedCoefficients0 (m : Model) : List ℚ :=
  (List.range m.n_topics).map (fun t => m.alpha.getD t 0 / m.denom t)

end Model

/-- The out-of-vocabulary test `type < 0 || type >= type_topic_counts_.size()`
(lines 113 and 138). -/
def oov (m : Model) (tok : ℤ) : Prop :=
  tok < 0 ∨ (m.type_topic_counts.length : ℤ) ≤ tok

instance (m : Model) (tok : ℤ) : Decidable (oov m tok) := by
  unfold oov; exact inferInstance

/-- The `LocalState` struct.  The `dense_index` field of the C++ struct is
omitted: every use in the source first reinitializes it (lines 219, 237,
306), so it is a scratch cursor local to each loop, dead across calls. -/
structure LocalState where
  doc_topics : List ℤ
  topic_counts : List ℤ
  topic_index : List ℤ
  non_zero_topics : ℕ
  topic_beta_mass : ℚ
  topic_term_mass : ℚ
  topic_term_scores : List ℚ
  type : ℤ
  type_topic_counts : List ℤ

/-- The backward shifting scan of `maintain_dense_index_addition`
(lines 221-224): at cursor value `di + 1` it compares `topic_index.at(di)`
with the new topic and, while greater, copies it one slot right and moves
the cursor left.  Returns the shifted array and the final cursor. -/
def denseInsertLoop (topic : ℤ) : List ℤ → ℕ → List ℤ × ℕ
  | ti, 0 => (ti, 0)
  | ti, di + 1 =>
    if topic < ti.getD di 0 then
      denseInsertLoop topic (ti.set (di + 1) (ti.getD di 0)) di
    else (ti, di + 1)

/-- `maintain_dense_index_addition` (lines 210-229): only fires when the
topic's local count just became exactly 1.  Writing at slot
`non_zero_topics` requires `non_zero_topics < topic_index.size()`, which
the source assumes (a new topic means fewer than `n_topics` are active). -/
def maintain_dense_index_addition (s : LocalState) (topic : ℕ) : LocalState :=
  if s.topic_counts.getD topic 0 = 1 then
    let r := denseInsertLoop (topic : ℤ) s.topic_index s.non_zero_topics
    { s with topic_index := r.1.set r.2 (topic : ℤ),
             non_zero_topics := s.non_zero_topics + 1 }
  else s

/-- The forward scan of `maintain_dense_index_elimination` (lines 241-242)
locating the topic's slot.  The source has no bounds check here ("we know
it's in there somewhere"); on a state violating that precondition
`topic_index.at` would throw, while this total model returns the array
length. -/
def denseFindLoop (topic : ℤ) : List ℤ → ℕ → ℕ
  | [], acc => acc
  | x :: rest, acc => if x = topic then acc else denseFindLoop topic rest (acc + 1)

/-- The left-shifting scan of `maintain_dense_index_elimination`
(lines 245-251), run for `k` iterations starting at cursor `di`; each step
copies the next slot onto the current one, guarded by
`dense_index < topic_index.size() - 1`. -/
def denseShiftLoop : List ℤ → ℕ → ℕ → List ℤ
  | ti, _, 0 => ti
  | ti, di, k + 1 =>
    denseShiftLoop (if di < ti.length - 1 then ti.set di (ti.getD (di + 1) 0) else ti)
      (di + 1) k

/-- `maintain_dense_index_elimination` (lines 231-255): only fires when
the topic's local count just became exactly 0. -/
def maintain_dense_index_elimination (s : LocalState) (topic : ℕ) : LocalState :=
  if s.topic_counts.getD topic 0 = 0 then
    let slot := denseFindLoop (topic : ℤ) s.topic_index 0
    { s with topic_index := denseShiftLoop s.topic_index slot (s.non_zero_topics - slot),
             non_zero_topics := s.non_zero_topics - 1 }
  else s

/-- `add_or_remove_topic_and_update_state_and_coefficients`
(lines 183-207): update `topic_beta_mass` around the count change, refresh
the shared cached coefficient for the topic, then maintain the dense
index.  Returns the updated coefficient array together with the state. -/
def add_or_remove_topic_and_update_state_and_coefficients
    (m : Model) (cc : List ℚ) (s : LocalState) (topic : ℕ) (incr : Bool) :
    List ℚ × LocalState :=
  let denom := (m.topic_counts.getD topic 0 : ℚ) + m.beta_sum
  let bm1 := s.topic_beta_mass - m.beta * (s.topic_counts.getD topic 0 : ℚ) / denom
  let newCount := s.topic_counts.getD topic 0 + (if incr then 1 else -1)
  let bm2 := bm1 + m.beta * (newCount : ℚ) / denom
  let cc1 := cc.set topic ((m.alpha.getD topic 0 + (newCount : ℚ)) / denom)
  let s1 := { s with topic_counts := s.topic_counts.set topic newCount,
                     topic_beta_mass := bm2 }
  (cc1, if incr then maintain_dense_index_addition s1 topic
        else maintain_dense_index_elimination s1 topic)

/-- `add_topic_and_update_state_and_coefficients` (lines 169-176): record
the topic at the position, then the shared add path. -/
def add_topic_and_update_state_and_coefficients
    (m : Model) (cc : List ℚ) (s : LocalState) (topic : ℕ) (position : ℕ) :
    List ℚ × LocalState :=
  add_or_remove_topic_and_update_state_and_coefficients m cc
    { s with doc_topics := s.doc_topics.set position (topic : ℤ) } topic true

/-- `remove_topic_and_update_state_and_coefficients` (lines 178-181). -/
def remove_topic_and_update_state_and_coefficients
    (m : Model) (cc : List ℚ) (s : LocalState) (topic : ℕ) : List ℚ × LocalState :=
  add_or_remove_topic_and_update_state_and_coefficients m cc s topic false

/-- The scan of `update_topic_scores` (lines 266-277): walk the word's
profile until its end or the first non-positive count, accumulating
`cached_coefficient[index] * count` into the term mass and storing each
score at its profile index. -/
def updateScoresLoop (cc : List ℚ) : List ℤ → ℕ → List ℚ → ℚ → List ℚ × ℚ
  | [], _, scores, mass => (scores, mass)
  | c :: rest, index, scores, mass =>
    if 0 < c then
      updateScoresLoop cc rest (index + 1)
        (scores.set index (cc.getD index 0 * (c : ℚ)))
        (mass + cc.getD index 0 * (c : ℚ))
    else (scores, mass)

/-- `update_topic_scores` (lines 257-278): resets `topic_term_mass` to 0
and recomputes it with the scores for the current word type. -/
def update_topic_scores (cc : List ℚ) (s : LocalState) : LocalState :=
  let r := updateScoresLoop cc s.type_topic_counts 0 s.topic_term_scores 0
  { s with topic_term_scores := r.1, topic_term_mass := r.2 }

/-- The topic-term scan of `sample_new_topic` (lines 292-297):
`topic = -1; while (sample > 0) { ++topic; sample -= scores.at(topic); }`.
The list argument is the not-yet-consumed tail of the score array; running
out of it while the remainder is still positive is the unchecked
`.at(topic)` access past the end, modeled as `none`.  Note that a
non-positive initial remainder returns `-1` without entering the loop. -/
def termLoop : List ℚ → ℚ → ℤ → Option ℤ
  | l, sample, t =>
    if 0 < sample then
      match l with
      | [] => none
      | s :: rest => termLoop rest (sample - s) (t + 1)
    else some t

/-- The topic-beta scan of `sample_new_topic` (lines 306-315) over the
dense active-topic list: subtract `local_count / (global_count + beta_sum)`
per active topic, stop at the first non-positive remainder.  Falling off
the end of the list leaves `new_topic` at its initial `-1` (line 289),
which the routine then returns.  Access to the local/global count arrays
at the stored topic id is checked (`.at`). -/
def betaLoop (m : Model) (lc : List ℤ) : List ℤ → ℚ → Option ℤ
  | [], _ => some (-1)
  | topic :: rest, sample =>
    if 0 ≤ topic ∧ topic.toNat < lc.length ∧ topic.toNat < m.topic_counts.length then
      let s := sample - (lc.getD topic.toNat 0 : ℚ) /
        ((m.topic_counts.getD topic.toNat 0 : ℚ) + m.beta_sum)
      if s ≤ 0 then some topic else betaLoop m lc rest s
    else none

/-- The smoothing-only scan of `sample_new_topic` (lines 319-325):
`new_topic = 0; sample -= alpha.at(0)/..; while (sample > 0) { ++new_topic;
sample -= alpha.at(new_topic)/..; }` walking all topics from 0; running
past `n_topics` is the unchecked exhaustion case, modeled as `none`.  The
list argument pairs `alpha_` with `topic_counts_`. -/
def smoothLoop (m : Model) : List (ℚ × ℤ) → ℚ → ℤ → Option ℤ
  | [], _, _ => none
  | (a, g) :: rest, sample, t =>
    let s := sample - a / ((g : ℚ) + m.beta_sum)
    if 0 < s then smoothLoop m rest s (t + 1) else some t

/-- `sample_new_topic` (lines 280-338) with the uniform draw `u` (the
value of `sampler_.next()`) passed explicitly.  `some k` is the returned
int (`-1` = no topic selected); `none` models an `std::out_of_range`
exception from one of the unguarded scans. -/
def sample_new_topic (m : Model) (s : LocalState) (u : ℚ) : Option ℤ :=
  let sample := u * (m.smoothing_only_mass + s.topic_beta_mass + s.topic_term_mass)
  if sample < s.topic_term_mass then
    termLoop s.topic_term_scores sample (-1)
  else
    let sample1 := sample - s.topic_term_mass
    if sample1 < s.topic_beta_mass then
      if s.non_zero_topics ≤ s.topic_index.length then
        betaLoop m s.topic_counts (s.topic_index.take s.non_zero_topics) (sample1 / m.beta)
      else none
    else
      smoothLoop m (m.alpha.zip m.topic_counts) ((sample1 - s.topic_beta_mass) / m.beta) 0

/-- The per-particle mutable context of `get_word_probabilities`: the
local state, the shared cached-coefficient array (an evaluator member in
the source), the sampler cursor, `tokens_so_far` and the output vector. -/
structure GwpSt where
  state : LocalState
  cached_coefficients : List ℚ
  rng_index : ℕ
  tokens_so_far : ℕ
  word_probabilities : List ℚ

/-- Lines 115-116 and 140-141: point the local state at the word type of
the current position and its sparse profile. -/
def setWordType (m : Model) (s : LocalState) (tok : ℤ) : LocalState :=
  { s with
    type := tok
    type_topic_counts := m.type_topic_counts.getD tok.toNat [] }

/-- One iteration of the resampling sweep (lines 108-130): skip
out-of-vocabulary tokens; otherwise remove the position's current topic,
recompute topic scores, draw a new topic (falling back to the old topic on
a failed draw) and re-add it at the position. -/
def sweepStep (m : Model) (draws : ℕ → ℚ) (st : GwpSt) (position : ℕ) (tok : ℤ) :
    Option GwpSt :=
  if oov m tok then some st
  else
    let s0 := setWordType m st.state tok
    let old_topic := s0.doc_topics.getD position 0
    let p1 := remove_topic_and_update_state_and_coefficients m
      st.cached_coefficients s0 old_topic.toNat
    let s1 := update_topic_scores p1.1 p1.2
    match sample_new_topic m s1 (draws st.rng_index) with
    | none => none
    | some nt =>
      let nt1 := if nt = -1 then old_topic else nt
      let p2 := add_topic_and_update_state_and_coefficients m p1.1 s1 nt1.toNat position
      some { st with state := p2.2, cached_coefficients := p2.1,
                     rng_index := st.rng_index + 1 }

/-- The handling of the token at the current `limit` (lines 135-156):
skip if out of vocabulary; otherwise recompute topic scores, record the
marginal probability, draw a new topic (falling back to the last topic
index on a failed draw), add it at `limit` and bump `tokens_so_far`. -/
def frontierStep (m : Model) (draws : ℕ → ℚ) (st : GwpSt) (limit : ℕ) (tok : ℤ) :
    Option GwpSt :=
  if oov m tok then some st
  else
    let s0 := setWordType m st.state tok
    let s1 := update_topic_scores st.cached_coefficients s0
    let wp := st.word_probabilities.set limit (st.word_probabilities.getD limit 0 +
      (m.smoothing_only_mass + s1.topic_beta_mass + s1.topic_term_mass) /
        (m.alpha_sum + (st.tokens_so_far : ℚ)))
    match sample_new_topic m s1 (draws st.rng_index) with
    | none => none
    | some nt =>
      let nt1 := if nt = -1 then (m.n_topics : ℤ) - 1 else nt
      let p2 := add_topic_and_update_state_and_coefficients m
        st.cached_coefficients s1 nt1.toNat limit
      some { state := p2.2, cached_coefficients := p2.1,
             rng_index := st.rng_index + 1, tokens_so_far := st.tokens_so_far + 1,
             word_probabilities := wp }

/-- The resampling sweep over the (position, token) pairs strictly before
the current limit (lines 106-131). -/
def gwpSweep (m : Model) (draws : ℕ → ℚ) : List (ℕ × ℤ) → GwpSt → Option GwpSt
  | [], st => some st
  | (position, tok) :: rest, st =>
    match sweepStep m draws st position tok with
    | none => none
    | some st1 => gwpSweep m draws rest st1

/-- The main position loop of `get_word_probabilities` (lines 103-157):
the first list argument is the still-unprocessed tail of the document,
`limit` the index of its head in `doc`. -/
def gwpLoop (m : Model) (draws : ℕ → ℚ) (doc : List ℤ) (resampling : Bool) :
    List ℤ → ℕ → GwpSt → Option GwpSt
  | [], _, st => some st
  | tok :: rest, limit, st =>
    match (if resampling then gwpSweep m draws ((doc.take limit).enum) st else some st) with
    | none => none
    | some st1 =>
      match frontierStep m draws st1 limit tok with
      | none => none
      | some st2 => gwpLoop m draws doc resampling rest (limit + 1) st2

/-- The all-zero fresh `LocalState` built at lines 82-99. -/
def initialLocalState (m : Model) (docLen : ℕ) : LocalState :=
  { doc_topics := List.replicate docLen 0
    topic_counts := List.replicate m.n_topics 0
    topic_index := List.replicate m.n_topics 0
    non_zero_topics := 0
    topic_beta_mass := 0
    topic_term_mass := 0
    topic_term_scores := List.replicate m.n_topics 0
    type := 0
    type_topic_counts := [] }

/-- The teardown loop of `get_word_probabilities` (lines 161-164): reset
the cached coefficient of every topic in the dense active list to its
zero-local-count value. -/
def resetLoop (m : Model) : List ℤ → List ℚ → List ℚ
  | [], cc => cc
  | t :: rest, cc =>
    resetLoop m rest (cc.set t.toNat (m.alpha.getD t.toNat 0 / m.denom t.toNat))

/-- `get_word_probabilities` (lines 70-167).  Besides the per-position
probabilities it returns the cached-coefficient array and the sampler
cursor as left for the next call (both are object state in the source). -/
def get_word_probabilities (m : Model) (draws : ℕ → ℚ) (cc : List ℚ) (ri : ℕ)
    (types : List ℤ) (resampling : Bool) : Option (List ℚ × List ℚ × ℕ) :=
  let st0 : GwpSt :=
    { state := initialLocalState m types.length
      cached_coefficients := cc
      rng_index := ri
      tokens_so_far := 0
      word_probabilities := List.replicate types.length 0 }
  match gwpLoop m draws types resampling types 0 st0 with
  | none => none
  | some st =>
    some (st.word_probabilities,
          resetLoop m (st.state.topic_index.take st.state.non_zero_topics)
            st.cached_coefficients,
          st.rng_index)

/-- The particle loop of `evaluate` (lines 44-47): run
`get_word_probabilities` once per particle, collecting the per-position
vectors in order; the coefficient array and sampler cursor thread through
the calls. -/
def runParticles (m : Model) (draws : ℕ → ℚ) (doc : List ℤ) (resampling : Bool) :
    ℕ → List ℚ → ℕ → Option (List (List ℚ) × List ℚ × ℕ)
  | 0, cc, ri => some ([], cc, ri)
  | k + 1, cc, ri =>
    match get_word_probabilities m draws cc ri doc resampling with
    | none => none
    | some (v, cc1, ri1) =>
      match runParticles m draws doc resampling k cc1 ri1 with
      | none => none
      | some (vs, cc2, ri2) => some (v :: vs, cc2, ri2)

/-- The inner particle summation at one position (lines 52-56): add the
probabilities of the particles in order but `break` out of the particle
loop at the first particle whose vector is too short. -/
def sumParticles : List (List ℚ) → ℕ → ℚ
  | [], _ => 0
  | v :: rest, position =>
    if v.length ≤ position then 0
    else v.getD position 0 + sumParticles rest position

/-- The position loop of `evaluate` (lines 49-62): for each position below
the bound, accumulate `lg sum - lg n_particles` when the particle sum is
strictly positive, else skip the position. -/
def positionsLoop (lg : ℚ → ℚ) (log_n_particles : ℚ) (pvs : List (List ℚ))
    (bound : ℕ) : ℚ :=
  (List.range bound).foldl
    (fun acc position =>
      let sum := sumParticles pvs position
      if 0 < sum then acc + (lg sum - log_n_particles) else acc)
    0

/-- The document loop of `evaluate` (lines 41-65).  `max_len` is declared
outside this loop in the source (line 39) and never reset, so it carries
the maximum particle-vector length over all documents processed so far;
it is threaded here as `maxLen`. -/
def evalDocs (m : Model) (lg : ℚ → ℚ) (draws : ℕ → ℚ) (n_particles : ℕ)
    (resampling : Bool) :
    List (List ℤ) → ℚ → ℕ → List ℚ → ℕ → Option (ℚ × List ℚ × ℕ)
  | [], total, _, cc, ri => some (total, cc, ri)
  | doc :: rest, total, maxLen, cc, ri =>
    match runParticles m draws doc resampling n_particles cc ri with
    | none => none
    | some (pvs, cc1, ri1) =>
      let maxLen1 := pvs.foldl (fun acc v => max acc v.length) maxLen
      evalDocs m lg draws n_particles resampling rest
        (total + positionsLoop lg (lg (n_particles : ℚ)) pvs maxLen1) maxLen1 cc1 ri1

/-- `evaluate` (lines 31-68), parameterized by the external natural
logarithm `lg` and the sampler stream. -/
def evaluate (m : Model) (lg : ℚ → ℚ) (draws : ℕ → ℚ) (cc : List ℚ) (ri : ℕ)
    (types : List (List ℤ)) (n_particles : ℕ) (resampling : Bool) :
    Option (ℚ × List ℚ × ℕ) :=
  evalDocs m lg draws n_particles resampling types 0 0 cc ri

/-- Modelled from the spec: the reference evaluator of claim C9, in which
the per-position averaging loop for each document runs only up to that
document's own length instead of the carried `max_len`. -/
def evalDocsRef (m : Model) (lg : ℚ → ℚ) (draws : ℕ → ℚ) (n_particles : ℕ)
    (resampling : Bool) :
    List (List ℤ) → ℚ → List ℚ → ℕ → Option (ℚ × List ℚ × ℕ)
  | [], total, cc, ri => some (total, cc, ri)
  | doc :: rest, total, cc, ri =>
    match runParticles m draws doc resampling n_particles cc ri with
    | none => none
    | some (pvs, cc1, ri1) =>
      evalDocsRef m lg draws n_particles resampling rest
        (total + positionsLoop lg (lg (n_particles : ℚ)) pvs doc.length) cc1 ri1

/-- Modelled from the spec: `evaluate` with the reference document loop. -/
def evaluateRef (m : Model) (lg : ℚ → ℚ) (draws : ℕ → ℚ) (cc : List ℚ) (ri : ℕ)
    (types : List (List ℤ)) (n_particles : ℕ) (resampling : Bool) :
    Option (ℚ × List ℚ × ℕ) :=
  evalDocsRef m lg draws n_particles resampling types 0 cc ri

/-- The number of in-vocabulary tokens of a token list (the value
`tokens_so_far` reaches after processing it). -/
def countInVocab (m : Model) (l : List ℤ) : ℕ :=
  (l.filter (fun tok => !decide (oov m tok))).length

/-! ### Generic list helpers -/

/-- The invariant tying a `LocalState` and the shared cached-coefficient
array to the model: array sizes, the dense-index invariant (sorted,
duplicate-free, exactly the topics with nonzero local count), non-negative
local counts, coefficient coherence and the incremental beta mass. -/
structure SInv (m : Model) (cc : List ℚ) (s : LocalState) : Prop where
  tc_len : s.topic_counts.length = m.n_topics
  ti_len : s.topic_index.length = m.n_topics
  cc_len : cc.length = m.n_topics
  scores_len : s.topic_term_scores.length = m.n_topics
  nzt_le : s.non_zero_topics ≤ m.n_topics
  sorted : (s.topic_index.take s.non_zero_topics).Sorted (· < ·)
  mem : ∀ x : ℤ, (x ∈ s.topic_index.take s.non_zero_topics) ↔
        (0 ≤ x ∧ x.toNat < m.n_topics ∧ s.topic_counts.getD x.toNat 0 ≠ 0)
  nonneg : ∀ t : ℕ, 0 ≤ s.topic_counts.getD t 0
  coeff : ∀ t : ℕ, t < m.n_topics →
    cc.getD t 0 = (m.alpha.getD t 0 + (s.topic_counts.getD t 0 : ℚ)) / m.denom t
  bmass : s.topic_beta_mass =
    ∑ t ∈ Finset.range m.n_topics, m.beta * (s.topic_counts.getD t 0 : ℚ) / m.denom t

/-- Basic well-formedness of the construction inputs: a positive topic
count and per-topic arrays of matching length. -/
def Wf (m : Model) : Prop :=
  0 < m.n_topics ∧ m.alpha.length = m.n_topics ∧ m.topic_counts.length = m.n_topics

instance (m : Model) : Decidable (Wf m) := by
  unfold Wf; exact inferInstance

/-- The in-vocabulary positions strictly before `limit` (the positions
whose tokens have been added to the local state). -/
def procPositions (m : Model) (doc : List ℤ) (limit : ℕ) : List ℕ :=
  (List.range limit).filter (fun p => !decide (oov m (doc.getD p 0)))

/-- How many of the positions `ps` currently carry topic `t`. -/
def assignedCount (doc_topics : List ℤ) (ps : List ℕ) (t : ℕ) : ℕ :=
  ps.countP (fun p => decide (doc_topics.getD p 0 = (t : ℤ)))

/-- The invariant carried through the position loop of
`get_word_probabilities`: the state invariant, plus the fact that the
local counts are exactly the per-topic tallies of the topics assigned at
the processed in-vocabulary positions. -/
structure GwpInv (m : Model) (doc : List ℤ) (limit : ℕ) (st : GwpSt) : Prop where
  sinv : SInv m st.cached_coefficients st.state
  dt_len : st.state.doc_topics.length = doc.length
  assigned_range : ∀ p ∈ procPositions m doc limit,
    0 ≤ st.state.doc_topics.getD p 0 ∧ (st.state.doc_topics.getD p 0).toNat < m.n_topics
  tally : ∀ t : ℕ, t < m.n_topics →
    st.state.topic_counts.getD t 0
      = (assignedCount st.state.doc_topics (procPositions m doc limit) t : ℤ)

/-- The starting `GwpSt` built at lines 76-99 of the source. -/
def gwpStart (m : Model) (cc : List ℚ) (ri : ℕ) (doc : List ℤ) : GwpSt :=
  { state := initialLocalState m doc.length
    cached_coefficients := cc
    rng_index := ri
    tokens_so_far := 0
    word_probabilities := List.replicate doc.length 0 }

/-- The per-particle context just before the frontier handling of
position `pos`: the loop run over the first `pos` positions followed by
the resampling sweep of the positions before `pos` (when enabled). -/
def gwpBeforeFrontier (m : Model) (draws : ℕ → ℚ) (cc : List ℚ) (ri : ℕ)
    (doc : List ℤ) (resampling : Bool) (pos : ℕ) : Option GwpSt :=
  match gwpLoop m draws doc resampling (doc.take pos) 0 (gwpStart m cc ri doc) with
  | none => none
  | some st => if resampling then gwpSweep m draws ((doc.take pos).enum) st else some st

/-- The numerator recorded at a frontier position (line 145-147): the
total unnormalized mass after recomputing the topic scores for the word. -/
def frontierMass (m : Model) (st : GwpSt) (tok : ℤ) : ℚ :=
  let s1 := update_topic_scores st.cached_coefficients (setWordType m st.state tok)
  m.smoothing_only_mass + s1.topic_beta_mass + s1.topic_term_mass

/-- A small concrete model: 2 topics, alpha = (1/10, 1/10), beta = 1/100,
global topic counts (5, 5), two word types with sparse profiles
(3, 0) and (1, 2). -/
def exModel : Model :=
  { n_topics := 2
    alpha := [1/10, 1/10]
    beta := 1/100
    topic_counts := [5, 5]
    type_topic_counts := [[3, 0], [1, 2]] }

/-- Rebase a particle context's sampler cursor by `d`. -/
def shiftSt (d : ℕ) (st : GwpSt) : GwpSt :=
  { st with rng_index := st.rng_index + d }

/-- A sequence of one-unit topic operations: `(incr, topic, position)`
runs `add_topic_and_update_state_and_coefficients` at the position when
`incr` is true and `remove_topic_and_update_state_and_coefficients`
otherwise, threading the coefficient array and the local state. -/
def applyOps (m : Model) : List (Bool × ℕ × ℕ) → List ℚ × LocalState → List ℚ × LocalState
  | [], p => p
  | (incr, topic, position) :: rest, p =>
    applyOps m rest
      (if incr then add_topic_and_update_state_and_coefficients m p.1 p.2 topic position
       else remove_topic_and_update_state_and_coefficients m p.1 p.2 topic)

/-- The source's implicit preconditions along an operation sequence:
every topic id is in range, and a remove only targets a topic with a
positive local count (the source asserts "we know it's in there
somewhere" at line 239). -/
def ValidOps (m : Model) : List (Bool × ℕ × ℕ) → List ℚ × LocalState → Prop
  | [], _ => True
  | (incr, topic, position) :: rest, p =>
    topic < m.n_topics ∧
    (incr = false → 0 < p.2.topic_counts.getD topic 0) ∧
    ValidOps m rest
      (if incr then add_topic_and_update_state_and_coefficients m p.1 p.2 topic position
       else remove_topic_and_update_state_and_coefficients m p.1 p.2 topic)

def decValidOps (m : Model) : (ops : List (Bool × ℕ × ℕ)) → (p : List ℚ × LocalState) →
    Decidable (ValidOps m ops p)
  | [], _ => isTrue trivial
  | (incr, topic, position) :: rest, p =>
    haveI := decValidOps m rest
      (if incr then add_topic_and_update_state_and_coefficients m p.1 p.2 topic position
       else remove_topic_and_update_state_and_coefficients m p.1 p.2 topic)
    inferInstanceAs (Decidable (topic < m.n_topics ∧
      (incr = false → 0 < p.2.topic_counts.getD topic 0) ∧
      ValidOps m rest
        (if incr then add_topic_and_update_state_and_coefficients m p.1 p.2 topic position
         else remove_topic_and_update_state_and_coefficients m p.1 p.2 topic)))

instance (m : Model) (ops : List (Bool × ℕ × ℕ)) (p : List ℚ × LocalState) :
    Decidable (ValidOps m ops p) := decValidOps m ops p

/-- The model of the C4 counterexample: one topic, alpha = (0),
beta = 1, global count (0), no word types. -/
def c4model : Model :=
  { n_topics := 1
    alpha := [0]
    beta := 1
    topic_counts := [0]
    type_topic_counts := [] }

/-- The local state of the C4 counterexample: the topic-term score array
holds a single zero score while `topic_term_mass` is 1 (the mass a
floating-point run can retain after rounding), so the term scan is
selected and runs off the end of the score array. -/
def c4state : LocalState :=
  { doc_topics := []
    topic_counts := [0]
    topic_index := [0]
    non_zero_topics := 0
    topic_beta_mass := 0
    topic_term_mass := 1
    topic_term_scores := [0]
    type := 0
    type_topic_counts := [] }

/-- The model of the C5 witness: one topic, one word type whose sparse
profile starts with a zero count (so the recomputed term mass is 0). -/
def c5model : Model :=
  { n_topics := 1
    alpha := [0]
    beta := 1
    topic_counts := [0]
    type_topic_counts := [[0]] }

/-- The particle context of the C5 witness: the carried beta mass is 1,
so the draw 1/2 lands in the beta bucket, whose dense list is empty —
the draw fails with `-1`. -/
def c5st : GwpSt :=
  { state :=
      { doc_topics := [0]
        topic_counts := [0]
        topic_index := [0]
        non_zero_topics := 0
        topic_beta_mass := 1
        topic_term_mass := 0
        topic_term_scores := [0]
        type := 0
        type_topic_counts := [] }
    cached_coefficients := [0]
    rng_index := 0
    tokens_so_far := 0
    word_probabilities := [0] }

/-- The total unnormalized probability mass over all topics for a word
with sparse profile `w`, computed from scratch: for each topic,
`(alpha[t] + local_count[t]) * (beta + word_count[t]) / (global_count[t]
+ beta_sum)`. -/
def totalMass (m : Model) (w : List ℤ) (counts : List ℤ) : ℚ :=
  ∑ t ∈ Finset.range m.n_topics,
    (m.alpha.getD t 0 + (counts.getD t 0 : ℚ)) * (m.beta + (w.getD t 0 : ℚ)) / m.denom t

/-! ### Theorems -/

theorem getD_set_self {α : Type} (l : List α) (i : ℕ) (a d : α) (h : i < l.length) :
    (l.set i a).getD i d = a := by
  rw [List.getD_eq_getElem _ _ (by simpa using h)]
  simp [List.getElem_set]

theorem getD_set_ne {α : Type} (l : List α) {i j : ℕ} (a d : α) (h : i ≠ j) :
    (l.set i a).getD j d = l.getD j d := by
  by_cases h' : j < l.length
  · rw [List.getD_eq_getElem _ _ (by simpa using h'), List.getD_eq_getElem _ _ h']
    simp [List.getElem_set, h]
  · rw [List.getD_eq_default _ _ (by simpa using Nat.le_of_not_lt h'),
      List.getD_eq_default _ _ (Nat.le_of_not_lt h')]

theorem getD_set_cases {α : Type} (l : List α) (i j : ℕ) (a d : α) :
    (l.set i a).getD j d =
      if i = j ∧ j < l.length then a else l.getD j d := by
  by_cases hij : i = j
  · subst hij
    by_cases h : i < l.length
    · simp [h, getD_set_self l i a d h]
    · simp [h, List.set_eq_of_length_le (Nat.le_of_not_lt h)]
  · simp [hij, getD_set_ne l a d hij]

theorem getD_take' {α : Type} (l : List α) (n j : ℕ) (d : α) (h : j < n) :
    (l.take n).getD j d = l.getD j d := by
  by_cases h' : j < l.length
  · rw [List.getD_eq_getElem _ _ (by simp [h, h']), List.getD_eq_getElem _ _ h']
    exact List.getElem_take _
  · rw [List.getD_eq_default, List.getD_eq_default _ _ (Nat.le_of_not_lt h')]
    simp
    omega

theorem getD_drop' {α : Type} (l : List α) (n j : ℕ) (d : α) :
    (l.drop n).getD j d = l.getD (n + j) d := by
  rw [List.getD_eq_getElem?_getD, List.getD_eq_getElem?_getD, List.getElem?_drop]

theorem take_set_of_le {α : Type} (l : List α) (i n : ℕ) (a : α) (h : n ≤ i) :
    (l.set i a).take n = l.take n := by
  induction l generalizing i n with
  | nil => simp
  | cons x xs ih =>
    cases i with
    | zero => interval_cases n <;> simp_all
    | succ i' =>
      cases n with
      | zero => simp
      | succ n' => simpa using ih i' n' (Nat.le_of_succ_le_succ h)

theorem eq_of_getD {α : Type} (d : α) :
    ∀ (l1 l2 : List α), l1.length = l2.length →
      (∀ j, j < l1.length → l1.getD j d = l2.getD j d) → l1 = l2 := by
  intro l1
  induction l1 with
  | nil => intro l2 hlen _; cases l2 <;> simp_all
  | cons x xs ih =>
    intro l2 hlen hj
    cases l2 with
    | nil => simp at hlen
    | cons y ys =>
      have h0 := hj 0 (by simp)
      simp at h0
      subst h0
      have : xs = ys := by
        refine ih ys (by simpa using hlen) ?_
        intro j hjl
        have := hj (j + 1) (by simpa using Nat.succ_lt_succ hjl)
        simpa using this
      rw [this]

theorem set_getD_self {α : Type} (l : List α) (i : ℕ) (d : α) (h : i < l.length) :
    l.set i (l.getD i d) = l := by
  refine eq_of_getD d _ _ (by simp) ?_
  intro j hj
  rcases eq_or_ne i j with rfl | hne
  · exact getD_set_self _ _ _ _ h
  · exact getD_set_ne _ _ _ hne

theorem getD_mem {α : Type} (l : List α) (j : ℕ) (d : α) (h : j < l.length) :
    l.getD j d ∈ l := by
  rw [List.getD_eq_getElem _ _ h]
  exact List.getElem_mem h

theorem sorted_take {α : Type} {r : α → α → Prop} {l : List α} (h : l.Sorted r) (n : ℕ) :
    (l.take n).Sorted r :=
  List.Pairwise.sublist (List.take_sublist n l) h

theorem countInVocab_append (m : Model) (l1 l2 : List ℤ) :
    countInVocab m (l1 ++ l2) = countInVocab m l1 + countInVocab m l2 := by
  simp [countInVocab, List.filter_append]

theorem take_succ_getD {α : Type} (l : List α) (i : ℕ) (d : α) (h : i < l.length) :
    l.take (i + 1) = l.take i ++ [l.getD i d] := by
  rw [List.take_succ]
  congr 1
  rw [List.getElem?_eq_getElem h, List.getD_eq_getElem _ _ h]
  rfl

/-! ### Ordered-insert helpers for the dense index -/

theorem orderedInsert_append_last {l : List ℤ} {a b : ℤ} (h : a ≤ b) :
    (l ++ [b]).orderedInsert (· ≤ ·) a = l.orderedInsert (· ≤ ·) a ++ [b] := by
  induction l with
  | nil => simp [List.orderedInsert, h]
  | cons c t ih =>
    by_cases hac : a ≤ c
    · simp [List.orderedInsert, hac]
    · simp [List.orderedInsert, hac, ih]

theorem orderedInsert_of_forall_lt {l : List ℤ} {a : ℤ} (h : ∀ b ∈ l, b < a) :
    l.orderedInsert (· ≤ ·) a = l ++ [a] := by
  induction l with
  | nil => simp [List.orderedInsert]
  | cons c t ih =>
    have hca : ¬ a ≤ c := not_le.mpr (h c (by simp))
    simp only [List.orderedInsert, hca, if_false, List.cons_append]
    rw [ih (fun b hb => h b (by simp [hb]))]

theorem sorted_orderedInsert_lt {l : List ℤ} {a : ℤ}
    (hs : l.Sorted (· < ·)) (hnm : a ∉ l) :
    (l.orderedInsert (· ≤ ·) a).Sorted (· < ·) := by
  induction l with
  | nil => simp [List.orderedInsert]
  | cons b t ih =>
    rw [List.sorted_cons] at hs
    by_cases hab : a ≤ b
    · have hab' : a < b := lt_of_le_of_ne hab (by intro h; exact hnm (by simp [h]))
      simp only [List.orderedInsert, hab, if_true]
      rw [List.sorted_cons]
      constructor
      · intro x hx
        rcases List.mem_cons.mp hx with rfl | hx
        · exact hab'
        · exact lt_trans hab' (hs.1 x hx)
      · rw [List.sorted_cons]; exact hs
    · simp only [List.orderedInsert, hab, if_false]
      rw [List.sorted_cons]
      refine ⟨?_, ih hs.2 (fun h => hnm (by simp [h]))⟩
      intro x hx
      rcases (List.mem_orderedInsert _).mp hx with rfl | hx
      · exact lt_of_not_le hab
      · exact hs.1 x hx

theorem mem_orderedInsert_int {l : List ℤ} {a x : ℤ} :
    x ∈ l.orderedInsert (· ≤ ·) a ↔ x = a ∨ x ∈ l :=
  List.mem_orderedInsert _

/-! ### The backward insertion scan -/

theorem denseInsertLoop_spec (topic : ℤ) :
    ∀ (di : ℕ) (ti : List ℤ), di < ti.length →
      (ti.take di).Sorted (· < ·) → topic ∉ ti.take di →
      (denseInsertLoop topic ti di).1.length = ti.length ∧
      (denseInsertLoop topic ti di).2 ≤ di ∧
      (∀ j, di < j → (denseInsertLoop topic ti di).1.getD j 0 = ti.getD j 0) ∧
      ((denseInsertLoop topic ti di).1.set (denseInsertLoop topic ti di).2 topic).take (di + 1)
        = (ti.take di).orderedInsert (· ≤ ·) topic := by
  intro di
  induction di with
  | zero =>
    intro ti hlen _ _
    cases ti with
    | nil => simp at hlen
    | cons x xs => simp [denseInsertLoop, List.orderedInsert]
  | succ di ih =>
    intro ti hlen hsort hnm
    have hdi : di < ti.length := Nat.lt_of_succ_lt hlen
    have htd : ti.take (di + 1) = ti.take di ++ [ti.getD di 0] := take_succ_getD ti di 0 hdi
    by_cases hcmp : topic < ti.getD di 0
    · -- keep shifting
      have hset : (ti.set (di + 1) (ti.getD di 0)).take di = ti.take di :=
        take_set_of_le _ _ _ _ (Nat.le_succ di)
      have hlen2 : di < (ti.set (di + 1) (ti.getD di 0)).length := by
        simpa using hdi
      have hsort' : ((ti.set (di + 1) (ti.getD di 0)).take di).Sorted (· < ·) := by
        rw [hset]
        have : ti.take di = (ti.take (di + 1)).take di := by
          rw [List.take_take]; congr 1; omega
        rw [this]; exact sorted_take hsort di
      have hnm' : topic ∉ (ti.set (di + 1) (ti.getD di 0)).take di := by
        rw [hset]
        intro hmem
        exact hnm (by rw [htd]; exact List.mem_append_left _ hmem)
      obtain ⟨ihlen, ihle, ihut, ihtake⟩ := ih (ti.set (di + 1) (ti.getD di 0)) hlen2 hsort' hnm'
      rw [denseInsertLoop]
      simp only [hcmp, if_true]
      set r := denseInsertLoop topic (ti.set (di + 1) (ti.getD di 0)) di with hr
      refine ⟨by simpa using ihlen, le_trans ihle (Nat.le_succ di), ?_, ?_⟩
      · intro j hj
        have h1 : r.1.getD j 0 = (ti.set (di + 1) (ti.getD di 0)).getD j 0 :=
          ihut j (Nat.lt_of_succ_lt hj)
        rw [h1, getD_set_ne _ _ _ (by omega)]
      · have hFlen : di + 1 < (r.1.set r.2 topic).length := by
          simp [ihlen]; simpa using hlen
        rw [take_succ_getD _ (di + 1) 0 hFlen]
        have hGD : (r.1.set r.2 topic).getD (di + 1) 0 = ti.getD di 0 := by
          rw [getD_set_ne _ _ _ (by omega), ihut (di + 1) (Nat.lt_succ_self di),
            getD_set_self _ _ _ _ (by simpa using hlen)]
        rw [hGD, ihtake, hset, htd, orderedInsert_append_last (le_of_lt hcmp)]
    · -- stop here, insert at di+1
      rw [denseInsertLoop]
      simp only [hcmp, if_false]
      have hforall : ∀ b ∈ ti.take (di + 1), b < topic := by
        have hd_ne : ti.getD di 0 ≠ topic := by
          intro h
          exact hnm (by rw [htd, h]; exact List.mem_append_right _ (by simp))
        have hd_lt : ti.getD di 0 < topic := lt_of_le_of_ne (not_lt.mp hcmp) hd_ne
        intro b hb
        rw [htd] at hb
        rcases List.mem_append.mp hb with hb | hb
        · -- b in the earlier part: sorted prefix puts it below ti[di]
          have : b < ti.getD di 0 := by
            rw [htd] at hsort
            rw [List.Sorted, List.pairwise_append] at hsort
            exact hsort.2.2 b hb _ (by simp)
          exact lt_trans this hd_lt
        · rcases List.mem_singleton.mp hb with rfl
          exact hd_lt
      refine ⟨by simp, by simp, by simp, ?_⟩
      rw [orderedInsert_of_forall_lt hforall]
      rw [take_succ_getD (ti.set (di + 1) topic) (di + 1) 0 (by simpa using hlen),
        take_set_of_le _ _ _ _ (le_refl (di + 1)), getD_set_self _ _ _ _ hlen]

/-! ### The forward find and left-shift scans -/

theorem denseFindLoop_spec (topic : ℤ) :
    ∀ (l : List ℤ) (acc : ℕ), topic ∈ l →
      ∃ k, denseFindLoop topic l acc = acc + k ∧ k < l.length ∧
        l.getD k 0 = topic ∧ ∀ j, j < k → l.getD j 0 ≠ topic := by
  intro l
  induction l with
  | nil => intro acc h; simp at h
  | cons x rest ih =>
    intro acc hmem
    by_cases hx : x = topic
    · refine ⟨0, ?_, by simp, by simpa using hx, by omega⟩
      simp [denseFindLoop, hx]
    · have hmem' : topic ∈ rest := by
        rcases List.mem_cons.mp hmem with h | h
        · exact absurd h.symm hx
        · exact h
      obtain ⟨k', hfind, hlt, hget, hfirst⟩ := ih (acc + 1) hmem'
      refine ⟨k' + 1, ?_, by simpa using Nat.succ_lt_succ hlt, by simpa using hget, ?_⟩
      · rw [denseFindLoop]
        simp only [hx, if_false]
        omega
      · intro j hj
        cases j with
        | zero => simpa using hx
        | succ j' =>
          rw [List.getD_cons_succ]
          exact hfirst j' (by omega)

theorem denseShiftLoop_spec :
    ∀ (k : ℕ) (ti : List ℤ) (di : ℕ),
      (denseShiftLoop ti di k).length = ti.length ∧
      ∀ j, (denseShiftLoop ti di k).getD j 0 =
        if di ≤ j ∧ j < di + k ∧ j + 1 < ti.length then ti.getD (j + 1) 0
        else ti.getD j 0 := by
  intro k
  induction k with
  | zero =>
    intro ti di
    refine ⟨rfl, fun j => ?_⟩
    rw [if_neg (by omega)]
    simp [denseShiftLoop]
  | succ k ih =>
    intro ti di
    rw [denseShiftLoop]
    set ti1 := if di < ti.length - 1 then ti.set di (ti.getD (di + 1) 0) else ti with hti1
    have hlen1 : ti1.length = ti.length := by
      rw [hti1]; split <;> simp
    obtain ⟨ihlen, ihget⟩ := ih ti1 (di + 1)
    refine ⟨by rw [ihlen, hlen1], fun j => ?_⟩
    rw [ihget j, hlen1]
    have hti1get : ∀ i, ti1.getD i 0 =
        if i = di ∧ di + 1 < ti.length then ti.getD (di + 1) 0 else ti.getD i 0 := by
      intro i
      rw [hti1]
      by_cases hd : di < ti.length - 1
      · rw [if_pos hd, getD_set_cases]
        by_cases hidi : i = di
        · subst hidi
          rw [if_pos ⟨rfl, by omega⟩, if_pos ⟨rfl, by omega⟩]
        · rw [if_neg (by omega), if_neg (by omega)]
      · rw [if_neg hd, if_neg (by omega)]
    by_cases hc : di + 1 ≤ j ∧ j < di + 1 + k ∧ j + 1 < ti.length
    · rw [if_pos hc, hti1get (j + 1), if_neg (by omega), if_pos (by omega)]
    · rw [if_neg hc, hti1get j]
      by_cases hjdi : j = di ∧ di + 1 < ti.length
      · rw [if_pos hjdi, if_pos (by omega)]
        rw [hjdi.1]
      · rw [if_neg hjdi]
        by_cases hfin : di ≤ j ∧ j < di + (k + 1) ∧ j + 1 < ti.length
        · exfalso; omega
        · rw [if_neg hfin]

/-- Effect of `maintain_dense_index_elimination` on the dense prefix when
its guard fires: with the topic present in the (well-formed) prefix, the
prefix splits around the topic's first occurrence, which the shift
removes. -/
theorem maintain_elim_spec (s : LocalState) (topic : ℕ)
    (hguard : s.topic_counts.getD topic 0 = 0)
    (hnzt : s.non_zero_topics ≤ s.topic_index.length)
    (hmem : (topic : ℤ) ∈ s.topic_index.take s.non_zero_topics) :
    ∃ A B, s.topic_index.take s.non_zero_topics = A ++ (topic : ℤ) :: B ∧
      (topic : ℤ) ∉ A ∧
      (maintain_dense_index_elimination s topic).topic_index.take (s.non_zero_topics - 1)
        = A ++ B ∧
      (maintain_dense_index_elimination s topic).topic_index.length
        = s.topic_index.length ∧
      (maintain_dense_index_elimination s topic).non_zero_topics
        = s.non_zero_topics - 1 := by
  set ti := s.topic_index with hti
  set nzt := s.non_zero_topics with hnzt0
  set P := ti.take nzt with hP
  have hPlen : P.length = nzt := by rw [hP, List.length_take]; omega
  have hmem_ti : (topic : ℤ) ∈ ti := List.mem_of_mem_take hmem
  obtain ⟨k, hfind, hklt, hkget, hkfirst⟩ := denseFindLoop_spec (topic : ℤ) ti 0 hmem_ti
  -- the first occurrence lies inside the prefix
  obtain ⟨p, hp, hpeq⟩ := List.getElem_of_mem hmem
  have hpP : P.getD p 0 = (topic : ℤ) := by
    rw [List.getD_eq_getElem _ _ hp]; exact hpeq
  have hpti : ti.getD p 0 = (topic : ℤ) := by
    rw [← getD_take' ti nzt p 0 (by omega)]
    exact hpP
  have hknzt : k < nzt := by
    rcases Nat.lt_or_ge k nzt with h | h
    · exact h
    · exfalso
      have hpk : p < k := by
        have := hPlen ▸ hp
        omega
      exact hkfirst p hpk hpti
  refine ⟨P.take k, P.drop (k + 1), ?_, ?_, ?_, ?_, ?_⟩
  · -- the split of the prefix
    have hkP : k < P.length := by omega
    have hhead : P.drop k = (topic : ℤ) :: P.drop (k + 1) := by
      rw [List.drop_eq_getElem_cons hkP]
      congr 1
      rw [← List.getD_eq_getElem P 0 hkP, hP, getD_take' ti nzt k 0 hknzt]
      exact hkget
    rw [← hhead, List.take_append_drop]
  · -- topic not in the part before the first occurrence
    intro hmemA
    obtain ⟨j, hj, hjeq⟩ := List.getElem_of_mem hmemA
    have hjk : j < k := by
      have := List.length_take k P ▸ hj
      omega
    refine hkfirst j hjk ?_
    have : (P.take k).getD j 0 = (topic : ℤ) := by
      rw [List.getD_eq_getElem _ _ hj]; exact hjeq
    rw [getD_take' P k j 0 hjk, getD_take' ti nzt j 0 (by omega)] at this
    exact this
  · -- the shifted prefix
    rw [maintain_dense_index_elimination, if_pos hguard]
    simp only
    rw [← hti, hfind]
    simp only [Nat.zero_add]
    obtain ⟨hshlen, hshget⟩ := denseShiftLoop_spec (nzt - k) ti k
    refine eq_of_getD 0 _ _ ?_ ?_
    · rw [List.length_take, hshlen, List.length_append, List.length_take,
        List.length_drop, hPlen]
      omega
    · intro j hj
      have hj' : j < nzt - 1 := by
        rw [List.length_take, hshlen] at hj
        omega
      rw [getD_take' _ _ _ _ hj', hshget j]
      by_cases hjk : j < k
      · rw [if_neg (by omega), List.getD_append _ _ _ _ (by rw [List.length_take]; omega),
          getD_take' P k j 0 hjk, getD_take' ti nzt j 0 (by omega)]
      · rw [if_pos (by omega), List.getD_append_right _ _ _ _ (by rw [List.length_take]; omega),
          List.length_take]
        have hmin : min k P.length = k := by omega
        rw [hmin, getD_drop']
        have hidx : k + 1 + (j - k) = j + 1 := by omega
        rw [hidx, hP, getD_take' ti nzt (j + 1) 0 (by omega)]
  · rw [maintain_dense_index_elimination, if_pos hguard]
    simp only
    exact (denseShiftLoop_spec _ _ _).1
  · rw [maintain_dense_index_elimination, if_pos hguard]

/-! ### The local-state invariant -/

theorem sum_getD_set (n : ℕ) (counts : List ℤ) (topic : ℕ) (v : ℤ) (f : ℕ → ℤ → ℚ)
    (ht : topic < n) (hlen : topic < counts.length) :
    ∑ t ∈ Finset.range n, f t ((counts.set topic v).getD t 0)
      = ∑ t ∈ Finset.range n, f t (counts.getD t 0)
        - f topic (counts.getD topic 0) + f topic v := by
  have hmem : topic ∈ Finset.range n := Finset.mem_range.mpr ht
  have h1 := (Finset.add_sum_erase (Finset.range n)
    (fun t => f t ((counts.set topic v).getD t 0)) hmem).symm
  have h2 := (Finset.add_sum_erase (Finset.range n)
    (fun t => f t (counts.getD t 0)) hmem).symm
  have h3 : ∑ t ∈ (Finset.range n).erase topic, f t ((counts.set topic v).getD t 0)
      = ∑ t ∈ (Finset.range n).erase topic, f t (counts.getD t 0) := by
    refine Finset.sum_congr rfl ?_
    intro t htm
    rw [getD_set_ne _ _ _ (Ne.symm (Finset.mem_erase.mp htm).1)]
  have h4 : (counts.set topic v).getD topic 0 = v := getD_set_self _ _ _ _ hlen
  simp only [h4] at h1
  rw [h1, h2, h3]
  ring

/-- The elements of a sorted duplicate-free prefix drawn from `[0, n)` that
misses some topic below `n` number fewer than `n`. -/
theorem prefix_length_lt (P : List ℤ) (n : ℕ) (topic : ℕ)
    (hs : P.Sorted (· < ·))
    (hrange : ∀ x ∈ P, 0 ≤ x ∧ x.toNat < n)
    (hnot : (topic : ℤ) ∉ P) (htop : topic < n) : P.length < n := by
  set Q := P.map Int.toNat with hQ
  have hQnd : Q.Nodup := by
    refine List.Nodup.map_on ?_ hs.nodup
    intro a ha b hb hab
    have ha' : 0 ≤ a := (hrange a ha).1
    have hb' : 0 ≤ b := (hrange b hb).1
    omega
  have hQsub : ∀ y ∈ Q, y ∈ (Finset.range n).erase topic := by
    intro y hy
    rw [hQ] at hy
    obtain ⟨x, hx, rfl⟩ := List.mem_map.mp hy
    refine Finset.mem_erase.mpr ⟨?_, Finset.mem_range.mpr (hrange x hx).2⟩
    intro hcon
    refine hnot ?_
    have hx0 : 0 ≤ x := (hrange x hx).1
    have : x = (topic : ℤ) := by omega
    rwa [this] at hx
  have hcard : Q.toFinset.card ≤ ((Finset.range n).erase topic).card := by
    refine Finset.card_le_card ?_
    intro y hy
    exact hQsub y (List.mem_toFinset.mp hy)
  rw [List.toFinset_card_of_nodup hQnd] at hcard
  rw [Finset.card_erase_of_mem (Finset.mem_range.mpr htop), Finset.card_range] at hcard
  have : P.length = Q.length := by rw [hQ, List.length_map]
  omega

theorem SInv_initial (m : Model) (docLen : ℕ) :
    SInv m m.cachedCoefficients0 (initialLocalState m docLen) := by
  have hrep : ∀ (t : ℕ), ((List.replicate m.n_topics (0 : ℤ)).getD t 0) = 0 := by
    intro t
    rw [List.getD_eq_getElem?_getD]
    simp only [List.getElem?_replicate]
    split <;> rfl
  refine ⟨?_, ?_, ?_, ?_, ?_, ?_, ?_, ?_, ?_, ?_⟩
  · simp [initialLocalState]
  · simp [initialLocalState]
  · simp [Model.cachedCoefficients0]
  · simp [initialLocalState]
  · simp [initialLocalState]
  · simp [initialLocalState]
  · intro x
    simp only [initialLocalState, List.take_zero]
    constructor
    · intro h; simp at h
    · intro ⟨_, _, h⟩
      exact absurd (hrep x.toNat) h
  · intro t
    simp only [initialLocalState]
    rw [hrep t]
  · intro t ht
    simp only [initialLocalState, Model.cachedCoefficients0]
    rw [hrep t]
    rw [List.getD_eq_getElem _ _ (by simpa using ht)]
    simp [Int.cast_zero]
  · simp only [initialLocalState]
    rw [Finset.sum_eq_zero]
    intro t _
    rw [hrep t]
    simp

theorem add_or_remove_unfold (m : Model) (cc : List ℚ) (s : LocalState) (topic : ℕ)
    (incr : Bool) :
    add_or_remove_topic_and_update_state_and_coefficients m cc s topic incr =
      (cc.set topic ((m.alpha.getD topic 0 +
          ((s.topic_counts.getD topic 0 + (if incr then 1 else -1) : ℤ) : ℚ)) / m.denom topic),
       (fun s1 => if incr then maintain_dense_index_addition s1 topic
                  else maintain_dense_index_elimination s1 topic)
         { s with topic_counts := s.topic_counts.set topic
                    (s.topic_counts.getD topic 0 + (if incr then 1 else -1)),
                  topic_beta_mass := s.topic_beta_mass
                    - m.beta * (s.topic_counts.getD topic 0 : ℚ) / m.denom topic
                    + m.beta * ((s.topic_counts.getD topic 0 + (if incr then 1 else -1) : ℤ) : ℚ)
                      / m.denom topic }) := rfl

theorem maintain_addition_fields (s : LocalState) (topic : ℕ) :
    (maintain_dense_index_addition s topic).topic_counts = s.topic_counts ∧
    (maintain_dense_index_addition s topic).doc_topics = s.doc_topics ∧
    (maintain_dense_index_addition s topic).topic_beta_mass = s.topic_beta_mass ∧
    (maintain_dense_index_addition s topic).topic_term_mass = s.topic_term_mass ∧
    (maintain_dense_index_addition s topic).topic_term_scores = s.topic_term_scores ∧
    (maintain_dense_index_addition s topic).type = s.type ∧
    (maintain_dense_index_addition s topic).type_topic_counts = s.type_topic_counts := by
  rw [maintain_dense_index_addition]
  split <;> simp

theorem maintain_elimination_fields (s : LocalState) (topic : ℕ) :
    (maintain_dense_index_elimination s topic).topic_counts = s.topic_counts ∧
    (maintain_dense_index_elimination s topic).doc_topics = s.doc_topics ∧
    (maintain_dense_index_elimination s topic).topic_beta_mass = s.topic_beta_mass ∧
    (maintain_dense_index_elimination s topic).topic_term_mass = s.topic_term_mass ∧
    (maintain_dense_index_elimination s topic).topic_term_scores = s.topic_term_scores ∧
    (maintain_dense_index_elimination s topic).type = s.type ∧
    (maintain_dense_index_elimination s topic).type_topic_counts = s.type_topic_counts := by
  rw [maintain_dense_index_elimination]
  split <;> simp

/-- Adding one unit of local count for `topic` preserves the invariant;
the local counts change only at `topic` and all fields other than the
counts, the beta mass and the dense index are untouched. -/
theorem add_SInv (m : Model) (cc : List ℚ) (s : LocalState) (topic : ℕ)
    (h : SInv m cc s) (ht : topic < m.n_topics) :
    SInv m (add_or_remove_topic_and_update_state_and_coefficients m cc s topic true).1
      (add_or_remove_topic_and_update_state_and_coefficients m cc s topic true).2 ∧
    (add_or_remove_topic_and_update_state_and_coefficients m cc s topic true).2.topic_counts
      = s.topic_counts.set topic (s.topic_counts.getD topic 0 + 1) ∧
    (add_or_remove_topic_and_update_state_and_coefficients m cc s topic true).2.doc_topics
      = s.doc_topics ∧
    (add_or_remove_topic_and_update_state_and_coefficients m cc s topic true).2.topic_term_mass
      = s.topic_term_mass ∧
    (add_or_remove_topic_and_update_state_and_coefficients m cc s topic true).2.topic_term_scores
      = s.topic_term_scores ∧
    (add_or_remove_topic_and_update_state_and_coefficients m cc s topic true).2.type
      = s.type ∧
    (add_or_remove_topic_and_update_state_and_coefficients m cc s topic true).2.type_topic_counts
      = s.type_topic_counts := by
  have hclen : topic < s.topic_counts.length := by rw [h.tc_len]; exact ht
  have hcclen : topic < cc.length := by rw [h.cc_len]; exact ht
  rw [add_or_remove_unfold]
  simp only [if_true, ite_true]
  set c := s.topic_counts.getD topic 0 with hc0
  set s1 : LocalState :=
    { s with topic_counts := s.topic_counts.set topic (c + 1),
             topic_beta_mass := s.topic_beta_mass
               - m.beta * (c : ℚ) / m.denom topic
               + m.beta * ((c + 1 : ℤ) : ℚ) / m.denom topic } with hs1
  have hs1c : s1.topic_counts.getD topic 0 = c + 1 := getD_set_self _ _ _ _ hclen
  have hcoeff : ∀ t : ℕ, t < m.n_topics →
      (cc.set topic ((m.alpha.getD topic 0 + ((c + 1 : ℤ) : ℚ)) / m.denom topic)).getD t 0
        = (m.alpha.getD t 0 + (s1.topic_counts.getD t 0 : ℚ)) / m.denom t := by
    intro t htn
    by_cases htt : t = topic
    · subst htt
      rw [getD_set_self _ _ _ _ hcclen, hs1c]
    · rw [getD_set_ne _ _ _ (fun hh => htt hh.symm)]
      have : s1.topic_counts.getD t 0 = s.topic_counts.getD t 0 := by
        rw [hs1]
        exact getD_set_ne _ _ _ (fun hh => htt hh.symm)
      rw [this]
      exact h.coeff t htn
  have hbmass : s1.topic_beta_mass =
      ∑ t ∈ Finset.range m.n_topics, m.beta * (s1.topic_counts.getD t 0 : ℚ) / m.denom t := by
    have hsum := sum_getD_set m.n_topics s.topic_counts topic (c + 1)
      (fun t v => m.beta * (v : ℚ) / m.denom t) ht hclen
    rw [hs1]
    simp only
    rw [hsum, ← h.bmass]
  have hnonneg1 : ∀ t : ℕ, 0 ≤ s1.topic_counts.getD t 0 := by
    intro t
    rw [hs1]
    simp only
    rw [getD_set_cases]
    split
    · have := h.nonneg topic; omega
    · exact h.nonneg t
  by_cases hc : c = 0
  · -- the topic enters the active set: insertion fires
    have hguard : s1.topic_counts.getD topic 0 = 1 := by rw [hs1c, hc]; norm_num
    have hnotmem : (topic : ℤ) ∉ s.topic_index.take s.non_zero_topics := by
      intro hmem
      have := ((h.mem _).mp hmem).2.2
      rw [Int.toNat_natCast] at this
      exact this (hc0 ▸ hc)
    have hrange : ∀ x ∈ s.topic_index.take s.non_zero_topics,
        0 ≤ x ∧ x.toNat < m.n_topics := by
      intro x hx
      have := (h.mem x).mp hx
      exact ⟨this.1, this.2.1⟩
    have hPlen : (s.topic_index.take s.non_zero_topics).length = s.non_zero_topics := by
      rw [List.length_take, h.ti_len]
      have := h.nzt_le
      omega
    have hnztlt : s.non_zero_topics < m.n_topics := by
      have hlt := prefix_length_lt (s.topic_index.take s.non_zero_topics) m.n_topics topic
        h.sorted hrange hnotmem ht
      rwa [hPlen] at hlt
    have htilen : s.non_zero_topics < s.topic_index.length := by rw [h.ti_len]; exact hnztlt
    obtain ⟨hinslen, hinsle, _, hinstake⟩ :=
      denseInsertLoop_spec (topic : ℤ) s.non_zero_topics s.topic_index htilen
        h.sorted hnotmem
    rw [maintain_dense_index_addition, if_pos hguard]
    simp only
    have hs1ti : s1.topic_index = s.topic_index := rfl
    have hs1nzt : s1.non_zero_topics = s.non_zero_topics := rfl
    rw [hs1ti, hs1nzt]
    set r := denseInsertLoop (topic : ℤ) s.topic_index s.non_zero_topics with hr
    have hnewtake : (r.1.set r.2 (topic : ℤ)).take (s.non_zero_topics + 1)
        = (s.topic_index.take s.non_zero_topics).orderedInsert (· ≤ ·) (topic : ℤ) :=
      hinstake
    refine ⟨⟨?_, ?_, ?_, ?_, ?_, ?_, ?_, ?_, ?_, ?_⟩, ?_, ?_, ?_, ?_, ?_, ?_⟩
    · simpa using h.tc_len
    · rw [List.length_set, hinslen, h.ti_len]
    · rw [List.length_set, h.cc_len]
    · exact h.scores_len
    · simp only
      omega
    · rw [hnewtake]
      exact sorted_orderedInsert_lt h.sorted hnotmem
    · intro x
      rw [hnewtake, mem_orderedInsert_int]
      constructor
      · rintro (rfl | hx)
        · refine ⟨Int.natCast_nonneg topic, by simpa using ht, ?_⟩
          show (s.topic_counts.set topic (c + 1)).getD ((topic : ℤ)).toNat 0 ≠ 0
          rw [Int.toNat_natCast, getD_set_self _ _ _ _ hclen]
          omega
        · obtain ⟨hx0, hxn, hxc⟩ := (h.mem x).mp hx
          refine ⟨hx0, hxn, ?_⟩
          by_cases hxt : x.toNat = topic
          · show (s.topic_counts.set topic (c + 1)).getD x.toNat 0 ≠ 0
            rw [hxt, getD_set_self _ _ _ _ hclen]
            omega
          · show (s.topic_counts.set topic (c + 1)).getD x.toNat 0 ≠ 0
            rw [getD_set_ne _ _ _ (fun hh => hxt hh.symm)]
            exact hxc
      · rintro ⟨hx0, hxn, hxc⟩
        by_cases hxt : x = (topic : ℤ)
        · exact Or.inl hxt
        · refine Or.inr ((h.mem x).mpr ⟨hx0, hxn, ?_⟩)
          have hxt' : x.toNat ≠ topic := by omega
          have hxc' : (s.topic_counts.set topic (c + 1)).getD x.toNat 0 ≠ 0 := hxc
          rw [getD_set_ne _ _ _ (fun hh => hxt' hh.symm)] at hxc'
          exact hxc'
    · exact hnonneg1
    · exact hcoeff
    · exact hbmass
    · trivial
    · trivial
    · trivial
    · trivial
    · trivial
    · trivial
  · -- the topic was already active: the dense index is untouched
    have hguard : ¬ s1.topic_counts.getD topic 0 = 1 := by
      rw [hs1c]
      have := h.nonneg topic
      rw [← hc0] at this
      omega
    rw [maintain_dense_index_addition, if_neg hguard]
    refine ⟨⟨?_, ?_, ?_, ?_, ?_, ?_, ?_, ?_, ?_, ?_⟩, ?_, ?_, ?_, ?_, ?_, ?_⟩
    · simpa using h.tc_len
    · exact h.ti_len
    · rw [List.length_set, h.cc_len]
    · exact h.scores_len
    · exact h.nzt_le
    · exact h.sorted
    · intro x
      rw [show s1.topic_index.take s1.non_zero_topics
          = s.topic_index.take s.non_zero_topics from rfl]
      rw [h.mem x]
      constructor
      · rintro ⟨hx0, hxn, hxc⟩
        refine ⟨hx0, hxn, ?_⟩
        by_cases hxt : x.toNat = topic
        · rw [hs1]; simp only
          rw [hxt, getD_set_self _ _ _ _ hclen]
          have := h.nonneg topic
          omega
        · rw [hs1]; simp only
          rw [getD_set_ne _ _ _ (fun hh => hxt hh.symm)]
          exact hxc
      · rintro ⟨hx0, hxn, hxc⟩
        refine ⟨hx0, hxn, ?_⟩
        by_cases hxt : x.toNat = topic
        · rw [hxt]
          exact hc0 ▸ hc
        · rw [hs1] at hxc; simp only at hxc
          rw [getD_set_ne _ _ _ (fun hh => hxt hh.symm)] at hxc
          exact hxc
    · exact hnonneg1
    · exact hcoeff
    · exact hbmass
    · rfl
    · rfl
    · rfl
    · rfl
    · rfl
    · rfl

/-- Removing one unit of local count for a currently-present `topic`
preserves the invariant; the local counts change only at `topic` and all
fields other than the counts, the beta mass and the dense index are
untouched. -/
theorem remove_SInv (m : Model) (cc : List ℚ) (s : LocalState) (topic : ℕ)
    (h : SInv m cc s) (ht : topic < m.n_topics)
    (hpos : 0 < s.topic_counts.getD topic 0) :
    SInv m (add_or_remove_topic_and_update_state_and_coefficients m cc s topic false).1
      (add_or_remove_topic_and_update_state_and_coefficients m cc s topic false).2 ∧
    (add_or_remove_topic_and_update_state_and_coefficients m cc s topic false).2.topic_counts
      = s.topic_counts.set topic (s.topic_counts.getD topic 0 - 1) ∧
    (add_or_remove_topic_and_update_state_and_coefficients m cc s topic false).2.doc_topics
      = s.doc_topics ∧
    (add_or_remove_topic_and_update_state_and_coefficients m cc s topic false).2.topic_term_mass
      = s.topic_term_mass ∧
    (add_or_remove_topic_and_update_state_and_coefficients m cc s topic false).2.topic_term_scores
      = s.topic_term_scores ∧
    (add_or_remove_topic_and_update_state_and_coefficients m cc s topic false).2.type
      = s.type ∧
    (add_or_remove_topic_and_update_state_and_coefficients m cc s topic false).2.type_topic_counts
      = s.type_topic_counts := by
  have hclen : topic < s.topic_counts.length := by rw [h.tc_len]; exact ht
  have hcclen : topic < cc.length := by rw [h.cc_len]; exact ht
  rw [add_or_remove_unfold]
  simp only [if_false, ite_false, Bool.false_eq_true]
  set c := s.topic_counts.getD topic 0 with hc0
  have hsub : c + (-1) = c - 1 := by ring
  rw [hsub]
  set s1 : LocalState :=
    { s with topic_counts := s.topic_counts.set topic (c - 1),
             topic_beta_mass := s.topic_beta_mass
               - m.beta * (c : ℚ) / m.denom topic
               + m.beta * ((c - 1 : ℤ) : ℚ) / m.denom topic } with hs1
  have hs1c : s1.topic_counts.getD topic 0 = c - 1 := getD_set_self _ _ _ _ hclen
  have hcoeff : ∀ t : ℕ, t < m.n_topics →
      (cc.set topic ((m.alpha.getD topic 0 + ((c - 1 : ℤ) : ℚ)) / m.denom topic)).getD t 0
        = (m.alpha.getD t 0 + (s1.topic_counts.getD t 0 : ℚ)) / m.denom t := by
    intro t htn
    by_cases htt : t = topic
    · subst htt
      rw [getD_set_self _ _ _ _ hcclen, hs1c]
    · rw [getD_set_ne _ _ _ (fun hh => htt hh.symm)]
      have : s1.topic_counts.getD t 0 = s.topic_counts.getD t 0 := by
        rw [hs1]
        exact getD_set_ne _ _ _ (fun hh => htt hh.symm)
      rw [this]
      exact h.coeff t htn
  have hbmass : s1.topic_beta_mass =
      ∑ t ∈ Finset.range m.n_topics, m.beta * (s1.topic_counts.getD t 0 : ℚ) / m.denom t := by
    have hsum := sum_getD_set m.n_topics s.topic_counts topic (c - 1)
      (fun t v => m.beta * (v : ℚ) / m.denom t) ht hclen
    rw [hs1]
    simp only
    rw [hsum, ← h.bmass]
  have hnonneg1 : ∀ t : ℕ, 0 ≤ s1.topic_counts.getD t 0 := by
    intro t
    rw [hs1]
    simp only
    rw [getD_set_cases]
    split
    · omega
    · exact h.nonneg t
  by_cases hc : c = 1
  · -- the topic leaves the active set: elimination fires
    have hguard : s1.topic_counts.getD topic 0 = 0 := by rw [hs1c, hc]; norm_num
    have hmemP : (topic : ℤ) ∈ s.topic_index.take s.non_zero_topics := by
      refine (h.mem _).mpr ⟨Int.natCast_nonneg topic, by simpa using ht, ?_⟩
      rw [Int.toNat_natCast, ← hc0]
      omega
    have hnzt1 : s1.non_zero_topics ≤ s1.topic_index.length := by
      show s.non_zero_topics ≤ s.topic_index.length
      rw [h.ti_len]
      exact h.nzt_le
    have hmemP1 : (topic : ℤ) ∈ s1.topic_index.take s1.non_zero_topics := hmemP
    obtain ⟨A, B, hsplit, hnotA, htake, hlen, hnzt'⟩ :=
      maintain_elim_spec s1 topic hguard hnzt1 hmemP1
    have hsplit2 : s.topic_index.take s.non_zero_topics = A ++ (topic : ℤ) :: B := hsplit
    have htake2 : (maintain_dense_index_elimination s1 topic).topic_index.take
        (s.non_zero_topics - 1) = A ++ B := htake
    have hlen2 : (maintain_dense_index_elimination s1 topic).topic_index.length
        = s.topic_index.length := hlen
    have hnzt2 : (maintain_dense_index_elimination s1 topic).non_zero_topics
        = s.non_zero_topics - 1 := hnzt'
    clear hsplit htake hlen hnzt'
    have hnodup : (A ++ (topic : ℤ) :: B).Nodup := by
      rw [← hsplit2]
      exact h.sorted.nodup
    have hnotB : (topic : ℤ) ∉ B := by
      rcases List.nodup_append.mp hnodup with ⟨_, hnd2, _⟩
      exact (List.nodup_cons.mp hnd2).1
    have hfields := maintain_elimination_fields s1 topic
    refine ⟨⟨?_, ?_, ?_, ?_, ?_, ?_, ?_, ?_, ?_, ?_⟩, ?_, ?_, ?_, ?_, ?_, ?_⟩
    · rw [hfields.1]
      show (s.topic_counts.set topic (c - 1)).length = m.n_topics
      rw [List.length_set, h.tc_len]
    · rw [hlen2]
      show s.topic_index.length = m.n_topics
      exact h.ti_len
    · rw [List.length_set, h.cc_len]
    · rw [hfields.2.2.2.2.1]
      exact h.scores_len
    · rw [hnzt2]
      have := h.nzt_le
      omega
    · rw [hnzt2, htake2]
      have hsub2 : List.Sublist (A ++ B) (A ++ (topic : ℤ) :: B) :=
        List.Sublist.append_left (List.sublist_cons_self _ _) A
      have hsorted := h.sorted
      rw [hsplit2] at hsorted
      exact List.Pairwise.sublist hsub2 hsorted
    · intro x
      rw [hnzt2, htake2]
      have hcount : ∀ y : ℤ, 0 ≤ y → y.toNat ≠ topic →
          ((maintain_dense_index_elimination s1 topic).topic_counts.getD y.toNat 0
            = s.topic_counts.getD y.toNat 0) := by
        intro y _ hy
        rw [hfields.1]
        show (s.topic_counts.set topic (c - 1)).getD y.toNat 0 = _
        exact getD_set_ne _ _ _ (fun hh => hy hh.symm)
      constructor
      · intro hx
        have hxP : x ∈ s.topic_index.take s.non_zero_topics ∧ x ≠ (topic : ℤ) := by
          rcases List.mem_append.mp hx with hxa | hxb
          · refine ⟨by rw [hsplit2]; exact List.mem_append_left _ hxa, ?_⟩
            intro hcon
            rw [hcon] at hxa
            exact hnotA hxa
          · refine ⟨by rw [hsplit2]; exact List.mem_append_right _ (List.mem_cons_of_mem _ hxb), ?_⟩
            intro hcon
            rw [hcon] at hxb
            exact hnotB hxb
        obtain ⟨hx0, hxn, hxc⟩ := (h.mem x).mp hxP.1
        refine ⟨hx0, hxn, ?_⟩
        have hxt : x.toNat ≠ topic := by
          have := hxP.2
          omega
        rw [hcount x hx0 hxt]
        exact hxc
      · rintro ⟨hx0, hxn, hxc⟩
        have hxt : x.toNat ≠ topic := by
          intro hcon
          rw [hfields.1] at hxc
          have hxc' : (s.topic_counts.set topic (c - 1)).getD x.toNat 0 ≠ 0 := hxc
          rw [hcon, getD_set_self _ _ _ _ hclen] at hxc'
          omega
        rw [hcount x hx0 hxt] at hxc
        have hxP : x ∈ s.topic_index.take s.non_zero_topics :=
          (h.mem x).mpr ⟨hx0, hxn, hxc⟩
        rw [hsplit2] at hxP
        rcases List.mem_append.mp hxP with hxa | hxb
        · exact List.mem_append_left _ hxa
        · rcases List.mem_cons.mp hxb with hcon | hxb'
          · exfalso
            rw [hcon] at hxt
            rw [Int.toNat_natCast] at hxt
            exact hxt rfl
          · exact List.mem_append_right _ hxb'
    · intro t
      rw [hfields.1]
      exact hnonneg1 t
    · intro t htn
      rw [hfields.1]
      exact hcoeff t htn
    · rw [hfields.2.2.1, hfields.1]
      exact hbmass
    · rw [hfields.1]
    · rw [hfields.2.1]
    · rw [hfields.2.2.2.1]
    · rw [hfields.2.2.2.2.1]
    · rw [hfields.2.2.2.2.2.1]
    · rw [hfields.2.2.2.2.2.2]
  · -- the topic stays active: the dense index is untouched
    have hguard : ¬ s1.topic_counts.getD topic 0 = 0 := by
      rw [hs1c]
      omega
    rw [maintain_dense_index_elimination, if_neg hguard]
    refine ⟨⟨?_, ?_, ?_, ?_, ?_, ?_, ?_, ?_, ?_, ?_⟩, ?_, ?_, ?_, ?_, ?_, ?_⟩
    · show (s.topic_counts.set topic (c - 1)).length = m.n_topics
      rw [List.length_set, h.tc_len]
    · exact h.ti_len
    · rw [List.length_set, h.cc_len]
    · exact h.scores_len
    · exact h.nzt_le
    · exact h.sorted
    · intro x
      rw [show s1.topic_index.take s1.non_zero_topics
          = s.topic_index.take s.non_zero_topics from rfl]
      rw [h.mem x]
      constructor
      · rintro ⟨hx0, hxn, hxc⟩
        refine ⟨hx0, hxn, ?_⟩
        by_cases hxt : x.toNat = topic
        · show (s.topic_counts.set topic (c - 1)).getD x.toNat 0 ≠ 0
          rw [hxt, getD_set_self _ _ _ _ hclen]
          omega
        · show (s.topic_counts.set topic (c - 1)).getD x.toNat 0 ≠ 0
          rw [getD_set_ne _ _ _ (fun hh => hxt hh.symm)]
          exact hxc
      · rintro ⟨hx0, hxn, hxc⟩
        refine ⟨hx0, hxn, ?_⟩
        by_cases hxt : x.toNat = topic
        · rw [hxt]
          omega
        · have hxc' : (s.topic_counts.set topic (c - 1)).getD x.toNat 0 ≠ 0 := hxc
          rw [getD_set_ne _ _ _ (fun hh => hxt hh.symm)] at hxc'
          exact hxc'
    · exact hnonneg1
    · exact hcoeff
    · exact hbmass
    · trivial
    · trivial
    · trivial
    · trivial
    · trivial
    · trivial

/-! ### Topic-score update lemmas -/

theorem updateScoresLoop_fst_length (cc : List ℚ) :
    ∀ (l : List ℤ) (i : ℕ) (scores : List ℚ) (mass : ℚ),
      (updateScoresLoop cc l i scores mass).1.length = scores.length := by
  intro l
  induction l with
  | nil => intro i scores mass; rfl
  | cons c rest ih =>
    intro i scores mass
    rw [updateScoresLoop]
    split
    · rw [ih]
      simp
    · rfl

theorem update_topic_scores_fields (cc : List ℚ) (s : LocalState) :
    (update_topic_scores cc s).doc_topics = s.doc_topics ∧
    (update_topic_scores cc s).topic_counts = s.topic_counts ∧
    (update_topic_scores cc s).topic_index = s.topic_index ∧
    (update_topic_scores cc s).non_zero_topics = s.non_zero_topics ∧
    (update_topic_scores cc s).topic_beta_mass = s.topic_beta_mass ∧
    (update_topic_scores cc s).type = s.type ∧
    (update_topic_scores cc s).type_topic_counts = s.type_topic_counts ∧
    (update_topic_scores cc s).topic_term_scores.length = s.topic_term_scores.length := by
  refine ⟨rfl, rfl, rfl, rfl, rfl, rfl, rfl, ?_⟩
  rw [update_topic_scores]
  exact updateScoresLoop_fst_length cc _ _ _ _

theorem setWordType_fields (m : Model) (s : LocalState) (tok : ℤ) :
    (setWordType m s tok).doc_topics = s.doc_topics ∧
    (setWordType m s tok).topic_counts = s.topic_counts ∧
    (setWordType m s tok).topic_index = s.topic_index ∧
    (setWordType m s tok).non_zero_topics = s.non_zero_topics ∧
    (setWordType m s tok).topic_beta_mass = s.topic_beta_mass ∧
    (setWordType m s tok).topic_term_mass = s.topic_term_mass ∧
    (setWordType m s tok).topic_term_scores = s.topic_term_scores :=
  ⟨rfl, rfl, rfl, rfl, rfl, rfl, rfl⟩

/-- `SInv` only depends on the counts, the dense index, the beta mass, the
score-array length and the coefficient array, so it survives pointing the
state at a new word type and recomputing the topic scores. -/
theorem SInv_setWord_update (m : Model) (cc : List ℚ) (s : LocalState) (tok : ℤ)
    (h : SInv m cc s) :
    SInv m cc (update_topic_scores cc (setWordType m s tok)) := by
  obtain ⟨hd, hc, hi, hn, hb, ht, httc, hsl⟩ :=
    update_topic_scores_fields cc (setWordType m s tok)
  exact ⟨by rw [hc]; exact h.tc_len,
    by rw [hi]; exact h.ti_len,
    h.cc_len,
    by rw [hsl]; exact h.scores_len,
    by rw [hn]; exact h.nzt_le,
    by rw [hi, hn]; exact h.sorted,
    by intro x; rw [hi, hn, hc]; exact h.mem x,
    by intro t; rw [hc]; exact h.nonneg t,
    by intro t htn; rw [hc]; exact h.coeff t htn,
    by rw [hb, hc]; exact h.bmass⟩

/-! ### Range of the sampled topic -/

theorem termLoop_le :
    ∀ (l : List ℚ) (sample : ℚ) (t r : ℤ), termLoop l sample t = some r →
      t ≤ r ∧ r ≤ t + l.length := by
  intro l
  induction l with
  | nil =>
    intro sample t r h
    rw [termLoop] at h
    split at h
    · exact absurd h (by simp)
    · obtain rfl : t = r := by simpa using h
      simp
  | cons sc rest ih =>
    intro sample t r h
    rw [termLoop] at h
    split at h
    · obtain ⟨h1, h2⟩ := ih (sample - sc) (t + 1) r h
      constructor
      · omega
      · rw [List.length_cons]
        push_cast
        omega
    · obtain rfl : t = r := by simpa using h
      have := Int.natCast_nonneg ((sc :: rest).length)
      omega

theorem betaLoop_range (m : Model) (lc : List ℤ) :
    ∀ (L : List ℤ) (sample : ℚ) (x : ℤ), betaLoop m lc L sample = some x →
      x = -1 ∨ (0 ≤ x ∧ x.toNat < m.topic_counts.length) := by
  intro L
  induction L with
  | nil =>
    intro sample x h
    rw [betaLoop] at h
    left
    simpa using h.symm
  | cons topic rest ih =>
    intro sample x h
    rw [betaLoop] at h
    split at h
    · rename_i hb
      simp only at h
      split at h
      · right
        obtain rfl : topic = x := by simpa using h
        exact ⟨hb.1, hb.2.2⟩
      · exact ih _ x h
    · exact absurd h (by simp)

theorem smoothLoop_le (m : Model) :
    ∀ (L : List (ℚ × ℤ)) (sample : ℚ) (t x : ℤ), smoothLoop m L sample t = some x →
      t ≤ x ∧ x < t + L.length := by
  intro L
  induction L with
  | nil =>
    intro sample t x h
    exact absurd h (by rw [smoothLoop]; simp)
  | cons p rest ih =>
    intro sample t x h
    rw [smoothLoop] at h
    obtain ⟨a, g⟩ := p
    simp only at h
    split at h
    · obtain ⟨h1, h2⟩ := ih _ (t + 1) x h
      constructor
      · omega
      · rw [List.length_cons]
        push_cast
        omega
    · obtain rfl : t = x := by simpa using h
      rw [List.length_cons]
      constructor
      · omega
      · push_cast
        omega

/-- Any topic actually returned by `sample_new_topic` is either the
failure value `-1` or a valid topic index below `n_topics`. -/
theorem sample_new_topic_range (m : Model) (s : LocalState) (u : ℚ) (t : ℤ)
    (hw : Wf m) (hscores : s.topic_term_scores.length = m.n_topics)
    (h : sample_new_topic m s u = some t) :
    t = -1 ∨ (0 ≤ t ∧ t.toNat < m.n_topics) := by
  obtain ⟨hn, hal, htc⟩ := hw
  rw [sample_new_topic] at h
  simp only at h
  split at h
  · obtain ⟨h1, h2⟩ := termLoop_le _ _ _ _ h
    rw [hscores] at h2
    omega
  · split at h
    · split at h
      · rcases betaLoop_range m _ _ _ _ h with h1 | h1
        · exact Or.inl h1
        · right
          rw [htc] at h1
          exact h1
      · exact absurd h (by simp)
    · obtain ⟨h1, h2⟩ := smoothLoop_le m _ _ _ _ h
      have hzip : (m.alpha.zip m.topic_counts).length = m.n_topics := by
        rw [List.length_zip, hal, htc]
        omega
      rw [hzip] at h2
      omega

/-! ### Document-level invariant -/

theorem procPositions_nodup (m : Model) (doc : List ℤ) (limit : ℕ) :
    (procPositions m doc limit).Nodup :=
  List.Nodup.filter _ (List.nodup_range limit)

theorem mem_procPositions (m : Model) (doc : List ℤ) (limit : ℕ) (p : ℕ) :
    p ∈ procPositions m doc limit ↔ p < limit ∧ ¬ oov m (doc.getD p 0) := by
  rw [procPositions, List.mem_filter, List.mem_range]
  simp

theorem procPositions_succ (m : Model) (doc : List ℤ) (limit : ℕ) :
    procPositions m doc (limit + 1) =
      if oov m (doc.getD limit 0) then procPositions m doc limit
      else procPositions m doc limit ++ [limit] := by
  rw [procPositions, List.range_succ, List.filter_append]
  have hsing : (List.filter (fun p => !decide (oov m (doc.getD p 0))) [limit])
      = if oov m (doc.getD limit 0) then [] else [limit] := by
    rw [List.filter_singleton]
    by_cases hc : oov m (doc.getD limit 0)
    · have hd : (!decide (oov m (doc.getD limit 0))) = false := by
        rw [decide_eq_true hc]
        rfl
      rw [hd, if_pos hc]
      rfl
    · have hd : (!decide (oov m (doc.getD limit 0))) = true := by
        rw [decide_eq_false hc]
        rfl
      rw [hd, if_neg hc]
      rfl
  rw [hsing]
  by_cases hc : oov m (doc.getD limit 0)
  · rw [if_pos hc, if_pos hc, List.append_nil, procPositions]
  · rw [if_neg hc, if_neg hc, procPositions]

theorem SInv_setWord (m : Model) (cc : List ℚ) (s : LocalState) (tok : ℤ)
    (h : SInv m cc s) : SInv m cc (setWordType m s tok) :=
  ⟨h.tc_len, h.ti_len, h.cc_len, h.scores_len, h.nzt_le, h.sorted, h.mem, h.nonneg,
    h.coeff, h.bmass⟩

theorem SInv_update (m : Model) (cc : List ℚ) (s : LocalState)
    (h : SInv m cc s) : SInv m cc (update_topic_scores cc s) := by
  obtain ⟨hd, hc, hi, hn, hb, ht, httc, hsl⟩ := update_topic_scores_fields cc s
  exact ⟨by rw [hc]; exact h.tc_len,
    by rw [hi]; exact h.ti_len,
    h.cc_len,
    by rw [hsl]; exact h.scores_len,
    by rw [hn]; exact h.nzt_le,
    by rw [hi, hn]; exact h.sorted,
    by intro x; rw [hi, hn, hc]; exact h.mem x,
    by intro t; rw [hc]; exact h.nonneg t,
    by intro t htn; rw [hc]; exact h.coeff t htn,
    by rw [hb, hc]; exact h.bmass⟩

/-- Updating a single position changes per-topic tallies over a
duplicate-free position list in the obvious way. -/
theorem countP_update (ps : List ℕ) (hnd : ps.Nodup) (p : ℕ) (hp : p ∈ ps)
    (f g : ℕ → Bool) (hsame : ∀ q, q ≠ p → f q = g q) :
    (ps.countP g : ℤ) = (ps.countP f : ℤ)
      - (if f p then 1 else 0) + (if g p then 1 else 0) := by
  have hperm := List.perm_cons_erase hp
  have hnotm : p ∉ ps.erase p := hnd.not_mem_erase
  have hf := hperm.countP_eq f
  have hg := hperm.countP_eq g
  rw [List.countP_cons] at hf hg
  have hcong : (ps.erase p).countP f = (ps.erase p).countP g := by
    refine List.countP_congr ?_
    intro q hq
    rw [hsame q (fun hh => hnotm (hh ▸ hq))]
  rw [hf, hg, hcong]
  split <;> split <;> push_cast <;> omega

theorem SInv_setDocTopics (m : Model) (cc : List ℚ) (s : LocalState) (l : List ℤ)
    (h : SInv m cc s) : SInv m cc { s with doc_topics := l } :=
  ⟨h.tc_len, h.ti_len, h.cc_len, h.scores_len, h.nzt_le, h.sorted, h.mem, h.nonneg,
    h.coeff, h.bmass⟩

theorem sweepStep_inv (m : Model) (draws : ℕ → ℚ) (doc : List ℤ) (limit : ℕ)
    (st st' : GwpSt) (p : ℕ) (tok : ℤ)
    (hw : Wf m) (hp : p < limit) (hpd : p < doc.length) (htok : doc.getD p 0 = tok)
    (hstep : sweepStep m draws st p tok = some st')
    (hinv : GwpInv m doc limit st) :
    GwpInv m doc limit st' ∧ st'.word_probabilities = st.word_probabilities ∧
      st'.tokens_so_far = st.tokens_so_far := by
  rw [sweepStep] at hstep
  by_cases hoov : oov m tok
  · rw [if_pos hoov] at hstep
    obtain rfl : st = st' := by simpa using hstep
    exact ⟨hinv, rfl, rfl⟩
  · rw [if_neg hoov] at hstep
    simp only at hstep
    have hdtlen : st.state.doc_topics.length = doc.length := hinv.dt_len
    have hplen : p < st.state.doc_topics.length := by omega
    have hmemp : p ∈ procPositions m doc limit :=
      (mem_procPositions m doc limit p).mpr ⟨hp, by rw [htok]; exact hoov⟩
    set s0 := setWordType m st.state tok with hs0
    set old := s0.doc_topics.getD p 0 with holddef
    have holdst : old = st.state.doc_topics.getD p 0 := rfl
    have holdr : 0 ≤ old ∧ old.toNat < m.n_topics := by
      rw [holdst]
      exact hinv.assigned_range p hmemp
    have hcpos : 0 < st.state.topic_counts.getD old.toNat 0 := by
      rw [hinv.tally old.toNat holdr.2]
      have : 0 < assignedCount st.state.doc_topics (procPositions m doc limit) old.toNat := by
        rw [assignedCount, List.countP_pos_iff]
        refine ⟨p, hmemp, ?_⟩
        rw [decide_eq_true_eq, ← holdst]
        omega
      omega
    set p1 := remove_topic_and_update_state_and_coefficients m st.cached_coefficients
      s0 old.toNat with hp1def
    have hrem := remove_SInv m st.cached_coefficients s0 old.toNat
      (SInv_setWord _ _ _ _ hinv.sinv) holdr.2
      (by show 0 < s0.topic_counts.getD old.toNat 0; exact hcpos)
    have hS1 : SInv m p1.1 p1.2 := hrem.1
    have hcnt1 : p1.2.topic_counts = s0.topic_counts.set old.toNat
        (s0.topic_counts.getD old.toNat 0 - 1) := hrem.2.1
    have hdt1 : p1.2.doc_topics = s0.doc_topics := hrem.2.2.1
    set s1 := update_topic_scores p1.1 p1.2 with hs1def
    have hS2 : SInv m p1.1 s1 := SInv_update _ _ _ hS1
    have hs1dt : s1.doc_topics = st.state.doc_topics := by
      rw [hs1def, (update_topic_scores_fields p1.1 p1.2).1, hdt1]
      rfl
    have hs1cnt : s1.topic_counts
        = st.state.topic_counts.set old.toNat (st.state.topic_counts.getD old.toNat 0 - 1) := by
      rw [hs1def, (update_topic_scores_fields p1.1 p1.2).2.1, hcnt1]
      rfl
    cases hres : sample_new_topic m s1 (draws st.rng_index) with
    | none =>
      rw [hres] at hstep
      exact absurd hstep (by simp)
    | some nt =>
      rw [hres] at hstep
      simp only at hstep
      set nt1 := if nt = -1 then old else nt with hnt1
      have hnt1r : 0 ≤ nt1 ∧ nt1.toNat < m.n_topics := by
        rcases sample_new_topic_range m s1 (draws st.rng_index) nt hw hS2.scores_len hres
          with h1 | h1
        · rw [hnt1, if_pos h1]
          exact holdr
        · by_cases hm1 : nt = -1
          · rw [hnt1, if_pos hm1]
            exact holdr
          · rw [hnt1, if_neg hm1]
            exact h1
      set sD : LocalState := { s1 with doc_topics := s1.doc_topics.set p (nt1.toNat : ℤ) }
        with hsD
      have hadd := add_SInv m p1.1 sD nt1.toNat (SInv_setDocTopics _ _ _ _ hS2) hnt1r.2
      set p2 := add_or_remove_topic_and_update_state_and_coefficients m p1.1 sD
        nt1.toNat true with hp2def
      have hS3 : SInv m p2.1 p2.2 := hadd.1
      have hcnt2 : p2.2.topic_counts = sD.topic_counts.set nt1.toNat
          (sD.topic_counts.getD nt1.toNat 0 + 1) := hadd.2.1
      have hdt2 : p2.2.doc_topics = sD.doc_topics := hadd.2.2.1
      have hfold : add_topic_and_update_state_and_coefficients m p1.1 s1 nt1.toNat p = p2 := by
        rw [hp2def, hsD]
        rfl
      have hstep' : st' = { st with
          state := p2.2
          cached_coefficients := p2.1
          rng_index := st.rng_index + 1 } := by
        rw [hfold] at hstep
        exact (Option.some.inj hstep).symm
      have hdtfinal : p2.2.doc_topics = st.state.doc_topics.set p ((nt1.toNat : ℤ)) := by
        rw [hdt2, hsD]
        simp only
        rw [hs1dt]
      have hsDcnt : sD.topic_counts
          = st.state.topic_counts.set old.toNat (st.state.topic_counts.getD old.toNat 0 - 1) := by
        rw [hsD]
        simp only
        exact hs1cnt
      refine ⟨⟨?_, ?_, ?_, ?_⟩, ?_, ?_⟩
      · rw [hstep']
        exact hS3
      · rw [hstep']
        show p2.2.doc_topics.length = doc.length
        rw [hdtfinal, List.length_set]
        exact hdtlen
      · intro q hq
        rw [hstep']
        show 0 ≤ p2.2.doc_topics.getD q 0 ∧ (p2.2.doc_topics.getD q 0).toNat < m.n_topics
        rw [hdtfinal]
        by_cases hqp : q = p
        · subst hqp
          rw [getD_set_self _ _ _ _ hplen]
          constructor
          · exact Int.natCast_nonneg _
          · rw [Int.toNat_natCast]
            exact hnt1r.2
        · rw [getD_set_ne _ _ _ (fun hh => hqp hh.symm)]
          exact hinv.assigned_range q hq
      · intro t htn
        rw [hstep']
        show p2.2.topic_counts.getD t 0
          = (assignedCount p2.2.doc_topics (procPositions m doc limit) t : ℤ)
        rw [hcnt2, hsDcnt, hdtfinal]
        have hcu := countP_update (procPositions m doc limit)
          (procPositions_nodup m doc limit) p hmemp
          (fun q => decide (st.state.doc_topics.getD q 0 = (t : ℤ)))
          (fun q => decide ((st.state.doc_topics.set p ((nt1.toNat : ℤ))).getD q 0 = (t : ℤ)))
          (fun q hq => by
            show decide (st.state.doc_topics.getD q 0 = (t : ℤ))
              = decide ((st.state.doc_topics.set p ((nt1.toNat : ℤ))).getD q 0 = (t : ℤ))
            rw [getD_set_ne _ _ _ (fun hh => hq hh.symm)])
        rw [assignedCount, hcu]
        simp only [decide_eq_true_eq]
        have htally := hinv.tally t htn
        rw [assignedCount] at htally
        rw [getD_set_self _ _ _ _ hplen, ← holdst]
        have hclen : old.toNat < st.state.topic_counts.length := by
          rw [hinv.sinv.tc_len]
          exact holdr.2
        have hclen2 : nt1.toNat <
            (st.state.topic_counts.set old.toNat
              (st.state.topic_counts.getD old.toNat 0 - 1)).length := by
          rw [List.length_set, hinv.sinv.tc_len]
          exact hnt1r.2
        have htclen := hinv.sinv.tc_len
        clear_value old nt1
        by_cases hto : old.toNat = t
        · rw [hto]
          by_cases htn1 : nt1.toNat = t
          · rw [htn1]
            simp only [getD_set_cases, List.length_set, eq_self_iff_true, true_and]
            split_ifs <;> omega
          · simp only [getD_set_cases, List.length_set, eq_self_iff_true, true_and]
            split_ifs <;> omega
        · by_cases htn1 : nt1.toNat = t
          · rw [htn1]
            simp only [getD_set_cases, List.length_set, eq_self_iff_true, true_and]
            split_ifs <;> omega
          · simp only [getD_set_cases, List.length_set, eq_self_iff_true, true_and]
            split_ifs <;> omega
      · rw [hstep']
      · rw [hstep']

theorem frontierStep_inv (m : Model) (draws : ℕ → ℚ) (doc : List ℤ) (limit : ℕ)
    (st st' : GwpSt) (tok : ℤ)
    (hw : Wf m) (hlim : limit < doc.length) (htok : doc.getD limit 0 = tok)
    (hstep : frontierStep m draws st limit tok = some st')
    (hinv : GwpInv m doc limit st) :
    GwpInv m doc (limit + 1) st' := by
  rw [frontierStep] at hstep
  by_cases hoov : oov m tok
  · rw [if_pos hoov] at hstep
    obtain rfl : st = st' := by simpa using hstep
    have hps : procPositions m doc (limit + 1) = procPositions m doc limit := by
      rw [procPositions_succ, htok, if_pos hoov]
    exact ⟨hinv.sinv, hinv.dt_len, by rw [hps]; exact hinv.assigned_range,
      by rw [hps]; exact hinv.tally⟩
  · rw [if_neg hoov] at hstep
    simp only at hstep
    have hps : procPositions m doc (limit + 1)
        = procPositions m doc limit ++ [limit] := by
      rw [procPositions_succ, htok, if_neg hoov]
    have hdtlen : st.state.doc_topics.length = doc.length := hinv.dt_len
    have hplen : limit < st.state.doc_topics.length := by omega
    set s0 := setWordType m st.state tok with hs0
    set s1 := update_topic_scores st.cached_coefficients s0 with hs1def
    have hS2 : SInv m st.cached_coefficients s1 :=
      SInv_update _ _ _ (SInv_setWord _ _ _ _ hinv.sinv)
    have hs1dt : s1.doc_topics = st.state.doc_topics := by
      rw [hs1def, (update_topic_scores_fields st.cached_coefficients s0).1]
      rfl
    have hs1cnt : s1.topic_counts = st.state.topic_counts := by
      rw [hs1def, (update_topic_scores_fields st.cached_coefficients s0).2.1]
      rfl
    cases hres : sample_new_topic m s1 (draws st.rng_index) with
    | none =>
      rw [hres] at hstep
      exact absurd hstep (by simp)
    | some nt =>
      rw [hres] at hstep
      simp only at hstep
      set nt1 := if nt = -1 then (m.n_topics : ℤ) - 1 else nt with hnt1
      have hnt1r : 0 ≤ nt1 ∧ nt1.toNat < m.n_topics := by
        have hn := hw.1
        rcases sample_new_topic_range m s1 (draws st.rng_index) nt hw hS2.scores_len hres
          with h1 | h1
        · rw [hnt1, if_pos h1]
          omega
        · by_cases hm1 : nt = -1
          · rw [hnt1, if_pos hm1]
            omega
          · rw [hnt1, if_neg hm1]
            exact h1
      set sD : LocalState := { s1 with doc_topics := s1.doc_topics.set limit (nt1.toNat : ℤ) }
        with hsD
      have hadd := add_SInv m st.cached_coefficients sD nt1.toNat
        (SInv_setDocTopics _ _ _ _ hS2) hnt1r.2
      set p2 := add_or_remove_topic_and_update_state_and_coefficients m
        st.cached_coefficients sD nt1.toNat true with hp2def
      have hS3 : SInv m p2.1 p2.2 := hadd.1
      have hcnt2 : p2.2.topic_counts = sD.topic_counts.set nt1.toNat
          (sD.topic_counts.getD nt1.toNat 0 + 1) := hadd.2.1
      have hdt2 : p2.2.doc_topics = sD.doc_topics := hadd.2.2.1
      have hfold : add_topic_and_update_state_and_coefficients m st.cached_coefficients
          s1 nt1.toNat limit = p2 := by
        rw [hp2def, hsD]
        rfl
      have hstep' : st' = GwpSt.mk p2.2 p2.1 (st.rng_index + 1) (st.tokens_so_far + 1)
          (st.word_probabilities.set limit
            (st.word_probabilities.getD limit 0 +
              (m.smoothing_only_mass + s1.topic_beta_mass + s1.topic_term_mass) /
                (m.alpha_sum + (st.tokens_so_far : ℚ)))) := by
        rw [hfold] at hstep
        exact (Option.some.inj hstep).symm
      have hdtfinal : p2.2.doc_topics = st.state.doc_topics.set limit ((nt1.toNat : ℤ)) := by
        rw [hdt2, hsD]
        simp only
        rw [hs1dt]
      have hsDcnt : sD.topic_counts = st.state.topic_counts := by
        rw [hsD]
        simp only
        exact hs1cnt
      refine ⟨?_, ?_, ?_, ?_⟩
      · rw [hstep']
        exact hS3
      · rw [hstep']
        show p2.2.doc_topics.length = doc.length
        rw [hdtfinal, List.length_set]
        exact hdtlen
      · intro q hq
        rw [hstep']
        show 0 ≤ p2.2.doc_topics.getD q 0 ∧ (p2.2.doc_topics.getD q 0).toNat < m.n_topics
        rw [hdtfinal]
        rw [hps] at hq
        rcases List.mem_append.mp hq with hq | hq
        · have hqlim : q < limit := ((mem_procPositions m doc limit q).mp hq).1
          rw [getD_set_ne _ _ _ (by omega)]
          exact hinv.assigned_range q hq
        · rcases List.mem_singleton.mp hq with rfl
          rw [getD_set_self _ _ _ _ hplen]
          constructor
          · exact Int.natCast_nonneg _
          · rw [Int.toNat_natCast]
            exact hnt1r.2
      · intro t htn
        rw [hstep']
        show p2.2.topic_counts.getD t 0
          = (assignedCount p2.2.doc_topics (procPositions m doc (limit + 1)) t : ℤ)
        rw [hcnt2, hsDcnt, hdtfinal, hps, assignedCount, List.countP_append]
        have hcong : (procPositions m doc limit).countP
            (fun q => decide ((st.state.doc_topics.set limit ((nt1.toNat : ℤ))).getD q 0 = (t : ℤ)))
            = (procPositions m doc limit).countP
            (fun q => decide (st.state.doc_topics.getD q 0 = (t : ℤ))) := by
          refine List.countP_congr ?_
          intro q hq
          have hqlim : q < limit := ((mem_procPositions m doc limit q).mp hq).1
          rw [getD_set_ne _ _ _ (by omega)]
        rw [hcong]
        have hsing : ([limit].countP
            (fun q => decide ((st.state.doc_topics.set limit ((nt1.toNat : ℤ))).getD q 0 = (t : ℤ))))
            = if (nt1.toNat : ℤ) = (t : ℤ) then 1 else 0 := by
          rw [List.countP_singleton, getD_set_self _ _ _ _ hplen]
          by_cases hcase : (nt1.toNat : ℤ) = (t : ℤ)
          · rw [if_pos (decide_eq_true hcase), if_pos hcase]
          · rw [if_neg (by simpa using hcase), if_neg hcase]
        rw [hsing]
        have htally := hinv.tally t htn
        rw [assignedCount] at htally
        have htclen := hinv.sinv.tc_len
        clear_value nt1
        by_cases htn1 : nt1.toNat = t
        · rw [htn1]
          simp only [getD_set_cases, List.length_set, eq_self_iff_true, true_and]
          split_ifs <;> omega
        · simp only [getD_set_cases, List.length_set, eq_self_iff_true, true_and]
          split_ifs <;> omega

theorem gwpSweep_inv (m : Model) (draws : ℕ → ℚ) (doc : List ℤ) (limit : ℕ) :
    ∀ (L : List (ℕ × ℤ)) (st st' : GwpSt),
      Wf m →
      (∀ pt ∈ L, pt.1 < limit ∧ pt.1 < doc.length ∧ doc.getD pt.1 0 = pt.2) →
      gwpSweep m draws L st = some st' → GwpInv m doc limit st →
      GwpInv m doc limit st' ∧ st'.word_probabilities = st.word_probabilities ∧
        st'.tokens_so_far = st.tokens_so_far := by
  intro L
  induction L with
  | nil =>
    intro st st' _ _ hrun hinv
    obtain rfl : st = st' := by simpa [gwpSweep] using hrun
    exact ⟨hinv, rfl, rfl⟩
  | cons pt rest ih =>
    intro st st' hw hfacts hrun hinv
    obtain ⟨position, tok⟩ := pt
    rw [gwpSweep] at hrun
    cases hstep : sweepStep m draws st position tok with
    | none =>
      rw [hstep] at hrun
      exact absurd hrun (by simp)
    | some st1 =>
      rw [hstep] at hrun
      have hfact := hfacts (position, tok) (by simp)
      obtain ⟨h1, h2, h3⟩ := sweepStep_inv m draws doc limit st st1 position tok hw
        hfact.1 hfact.2.1 hfact.2.2 hstep hinv
      obtain ⟨h4, h5, h6⟩ := ih st1 st' hw
        (fun q hq => hfacts q (List.mem_cons_of_mem _ hq)) hrun h1
      exact ⟨h4, h5.trans h2, h6.trans h3⟩

theorem enum_take_facts (doc : List ℤ) (limit : ℕ) :
    ∀ pt ∈ (doc.take limit).enum, pt.1 < limit ∧ pt.1 < doc.length ∧ doc.getD pt.1 0 = pt.2 := by
  intro pt hpt
  have hsome : (doc.take limit)[pt.1]? = some pt.2 := List.mem_enum_iff_getElem?.mp hpt
  have hlen : pt.1 < (doc.take limit).length := by
    by_contra hcon
    rw [List.getElem?_eq_none (Nat.le_of_not_lt hcon)] at hsome
    exact absurd hsome (by simp)
  have hlen2 : pt.1 < limit ∧ pt.1 < doc.length := by
    rw [List.length_take] at hlen
    omega
  refine ⟨hlen2.1, hlen2.2, ?_⟩
  have : (doc.take limit).getD pt.1 0 = pt.2 := by
    rw [List.getD_eq_getElem?_getD, hsome]
    rfl
  rw [getD_take' _ _ _ _ hlen2.1] at this
  exact this

theorem gwpLoop_inv (m : Model) (draws : ℕ → ℚ) (doc : List ℤ) (resampling : Bool) :
    ∀ (rest : List ℤ) (limit : ℕ) (st st' : GwpSt),
      Wf m → rest = doc.drop limit → limit ≤ doc.length →
      gwpLoop m draws doc resampling rest limit st = some st' →
      GwpInv m doc limit st → GwpInv m doc doc.length st' := by
  intro rest
  induction rest with
  | nil =>
    intro limit st st' _ hrest hle hloop hinv
    have hlim : limit = doc.length := by
      have := congrArg List.length hrest
      rw [List.length_drop] at this
      simp at this
      omega
    obtain rfl : st = st' := by simpa [gwpLoop] using hloop
    rw [← hlim]
    exact hinv
  | cons tok rest' ih =>
    intro limit st st' hw hrest hle hloop hinv
    have hlenrel := congrArg List.length hrest
    rw [List.length_drop, List.length_cons] at hlenrel
    have hlim : limit < doc.length := by omega
    have htok : doc.getD limit 0 = tok := by
      have := congrArg (fun l => l.getD 0 0) hrest
      simp only at this
      rw [getD_drop'] at this
      simpa using this.symm
    have hrest' : rest' = doc.drop (limit + 1) := by
      have := congrArg List.tail hrest
      simp only [List.tail_cons] at this
      rw [List.tail_drop] at this
      exact this
    rw [gwpLoop] at hloop
    cases hsw0 : (if resampling then gwpSweep m draws ((doc.take limit).enum) st
        else some st) with
    | none =>
      rw [hsw0] at hloop
      exact absurd hloop (by simp)
    | some st1 =>
      rw [hsw0] at hloop
      simp only at hloop
      have hinv1 : GwpInv m doc limit st1 := by
        by_cases hrs : resampling
        · rw [if_pos hrs] at hsw0
          exact (gwpSweep_inv m draws doc limit _ st st1 hw
            (enum_take_facts doc limit) hsw0 hinv).1
        · rw [if_neg hrs] at hsw0
          obtain rfl : st = st1 := by simpa using hsw0
          exact hinv
      cases hfr : frontierStep m draws st1 limit tok with
      | none =>
        rw [hfr] at hloop
        exact absurd hloop (by simp)
      | some st2 =>
        rw [hfr] at hloop
        simp only at hloop
        have hinv2 : GwpInv m doc (limit + 1) st2 :=
          frontierStep_inv m draws doc limit st1 st2 tok hw hlim htok hfr hinv1
        exact ih (limit + 1) st2 st' hw hrest' (by omega) hloop hinv2

/-! ### Coefficient restoration (the teardown loop) -/

theorem cachedCoefficients0_length (m : Model) :
    m.cachedCoefficients0.length = m.n_topics := by
  rw [Model.cachedCoefficients0, List.length_map, List.length_range]

theorem cachedCoefficients0_getD (m : Model) (j : ℕ) (hj : j < m.n_topics) :
    m.cachedCoefficients0.getD j 0 = m.alpha.getD j 0 / m.denom j := by
  rw [Model.cachedCoefficients0,
    List.getD_eq_getElem _ _ (by rw [List.length_map, List.length_range]; exact hj)]
  rw [List.getElem_map, List.getElem_range]

theorem resetLoop_spec (m : Model) :
    ∀ (L : List ℤ) (cc : List ℚ), (∀ x ∈ L, x.toNat < cc.length) →
      (resetLoop m L cc).length = cc.length ∧
      ∀ j, j < cc.length → (resetLoop m L cc).getD j 0 =
        if ∃ x ∈ L, x.toNat = j then m.alpha.getD j 0 / m.denom j else cc.getD j 0 := by
  intro L
  induction L with
  | nil =>
    intro cc _
    refine ⟨rfl, fun j _ => ?_⟩
    rw [if_neg (by simp)]
    rfl
  | cons x rest ih =>
    intro cc hbound
    have hx : x.toNat < cc.length := hbound x (by simp)
    obtain ⟨ihlen, ihget⟩ := ih (cc.set x.toNat (m.alpha.getD x.toNat 0 / m.denom x.toNat))
      (by intro y hy; rw [List.length_set]; exact hbound y (List.mem_cons_of_mem _ hy))
    rw [resetLoop]
    constructor
    · rw [ihlen, List.length_set]
    · intro j hj
      rw [ihget j (by rw [List.length_set]; exact hj)]
      by_cases hrest : ∃ y ∈ rest, y.toNat = j
      · rw [if_pos hrest, if_pos ?_]
        obtain ⟨y, hy1, hy2⟩ := hrest
        exact ⟨y, List.mem_cons_of_mem _ hy1, hy2⟩
      · rw [if_neg hrest]
        by_cases hxj : x.toNat = j
        · rw [if_pos ⟨x, by simp, hxj⟩]
          rw [← hxj, getD_set_self _ _ _ _ hx]
        · rw [if_neg ?_, getD_set_ne _ _ _ hxj]
          rintro ⟨y, hy1, hy2⟩
          rcases List.mem_cons.mp hy1 with rfl | hy1
          · exact hxj hy2
          · exact hrest ⟨y, hy1, hy2⟩

theorem GwpInv_initial (m : Model) (doc : List ℤ) (ri : ℕ) :
    GwpInv m doc 0 { state := initialLocalState m doc.length
                     cached_coefficients := m.cachedCoefficients0
                     rng_index := ri
                     tokens_so_far := 0
                     word_probabilities := List.replicate doc.length 0 } := by
  have hps : procPositions m doc 0 = [] := by
    rw [procPositions, List.range_zero, List.filter_nil]
  refine ⟨SInv_initial m doc.length, by simp [initialLocalState], ?_, ?_⟩
  · rw [hps]
    intro p hp
    simp at hp
  · intro t htn
    rw [hps]
    show (List.replicate m.n_topics (0 : ℤ)).getD t 0 = _
    rw [assignedCount, List.countP_nil]
    rw [List.getD_eq_getElem?_getD]
    simp only [List.getElem?_replicate]
    split <;> rfl

/-- After any successful call of `get_word_probabilities` that starts from
the constructor's coefficient array, the returned coefficient array equals
the constructor's array again: every touched topic has been reset. -/
theorem gwp_coeffs_restored (m : Model) (draws : ℕ → ℚ) (ri : ℕ) (doc : List ℤ)
    (resampling : Bool) (probs cc' : List ℚ) (ri' : ℕ)
    (hw : Wf m)
    (h : get_word_probabilities m draws m.cachedCoefficients0 ri doc resampling
      = some (probs, cc', ri')) :
    cc' = m.cachedCoefficients0 := by
  rw [get_word_probabilities] at h
  cases hloop : gwpLoop m draws doc resampling doc 0
      { state := initialLocalState m doc.length
        cached_coefficients := m.cachedCoefficients0
        rng_index := ri
        tokens_so_far := 0
        word_probabilities := List.replicate doc.length 0 } with
  | none =>
    rw [hloop] at h
    exact absurd h (by simp)
  | some stf =>
    rw [hloop] at h
    simp only at h
    have hfin : GwpInv m doc doc.length stf :=
      gwpLoop_inv m draws doc resampling doc 0 _ stf hw (by simp) (by omega) hloop
        (GwpInv_initial m doc ri)
    have hcc' : cc' = resetLoop m
        (stf.state.topic_index.take stf.state.non_zero_topics) stf.cached_coefficients := by
      have h2 := Option.some.inj h
      have h3 := congrArg (fun x => x.2.1) h2
      simpa using h3.symm
    have hS := hfin.sinv
    have hbound : ∀ x ∈ stf.state.topic_index.take stf.state.non_zero_topics,
        x.toNat < stf.cached_coefficients.length := by
      intro x hx
      rw [hS.cc_len]
      exact ((hS.mem x).mp hx).2.1
    obtain ⟨hrlen, hrget⟩ := resetLoop_spec m
      (stf.state.topic_index.take stf.state.non_zero_topics) stf.cached_coefficients hbound
    rw [hcc']
    refine eq_of_getD 0 _ _ ?_ ?_
    · rw [hrlen, hS.cc_len, cachedCoefficients0_length]
    · intro j hj
      have hjn : j < m.n_topics := by
        rw [hrlen, hS.cc_len] at hj
        exact hj
      rw [hrget j (by rw [hS.cc_len]; exact hjn), cachedCoefficients0_getD m j hjn]
      by_cases hex : ∃ x ∈ stf.state.topic_index.take stf.state.non_zero_topics, x.toNat = j
      · rw [if_pos hex]
      · rw [if_neg hex]
        have hcnt0 : stf.state.topic_counts.getD j 0 = 0 := by
          by_contra hcon
          refine hex ⟨(j : ℤ), ?_, Int.toNat_natCast j⟩
          refine (hS.mem (j : ℤ)).mpr ⟨Int.natCast_nonneg j, ?_, ?_⟩
          · rw [Int.toNat_natCast]
            exact hjn
          · rw [Int.toNat_natCast]
            exact hcon
        rw [hS.coeff j hjn, hcnt0]
        norm_num

theorem countInVocab_cons (m : Model) (tok : ℤ) (l : List ℤ) :
    countInVocab m (tok :: l) = (if oov m tok then 0 else 1) + countInVocab m l := by
  rw [countInVocab, countInVocab, List.filter_cons]
  by_cases h : oov m tok
  · rw [if_pos h]
    have : (!decide (oov m tok)) = false := by rw [decide_eq_true h]; rfl
    rw [this]
    simp
  · rw [if_neg h]
    have : (!decide (oov m tok)) = true := by rw [decide_eq_false h]; rfl
    rw [this]
    simp [Nat.add_comm]

theorem sweepStep_light (m : Model) (draws : ℕ → ℚ) (st st' : GwpSt) (p : ℕ) (tok : ℤ)
    (hstep : sweepStep m draws st p tok = some st') :
    st'.word_probabilities = st.word_probabilities ∧
      st'.tokens_so_far = st.tokens_so_far := by
  rw [sweepStep] at hstep
  split at hstep
  · obtain rfl : st = st' := by simpa using hstep
    exact ⟨rfl, rfl⟩
  · simp only at hstep
    split at hstep
    · exact absurd hstep (by simp)
    · obtain rfl := (Option.some.inj hstep).symm
      exact ⟨rfl, rfl⟩

theorem gwpSweep_light (m : Model) (draws : ℕ → ℚ) :
    ∀ (L : List (ℕ × ℤ)) (st st' : GwpSt), gwpSweep m draws L st = some st' →
      st'.word_probabilities = st.word_probabilities ∧
        st'.tokens_so_far = st.tokens_so_far := by
  intro L
  induction L with
  | nil =>
    intro st st' h
    obtain rfl : st = st' := by simpa [gwpSweep] using h
    exact ⟨rfl, rfl⟩
  | cons pt rest ih =>
    intro st st' h
    obtain ⟨position, tok⟩ := pt
    rw [gwpSweep] at h
    cases hstep : sweepStep m draws st position tok with
    | none =>
      rw [hstep] at h
      exact absurd h (by simp)
    | some st1 =>
      rw [hstep] at h
      obtain ⟨h1, h2⟩ := sweepStep_light m draws st st1 position tok hstep
      obtain ⟨h3, h4⟩ := ih st1 st' h
      exact ⟨h3.trans h1, h4.trans h2⟩

theorem frontierStep_light (m : Model) (draws : ℕ → ℚ) (st st' : GwpSt)
    (limit : ℕ) (tok : ℤ)
    (hstep : frontierStep m draws st limit tok = some st') :
    (oov m tok → st' = st) ∧
    (¬ oov m tok →
      st'.word_probabilities = st.word_probabilities.set limit
        (st.word_probabilities.getD limit 0 +
          frontierMass m st tok / (m.alpha_sum + (st.tokens_so_far : ℚ))) ∧
      st'.tokens_so_far = st.tokens_so_far + 1) := by
  rw [frontierStep] at hstep
  by_cases hoov : oov m tok
  · rw [if_pos hoov] at hstep
    obtain rfl : st = st' := by simpa using hstep
    exact ⟨fun _ => rfl, fun hc => absurd hoov hc⟩
  · rw [if_neg hoov] at hstep
    simp only at hstep
    refine ⟨fun hc => absurd hc hoov, fun _ => ?_⟩
    split at hstep
    · exact absurd hstep (by simp)
    · obtain rfl := (Option.some.inj hstep).symm
      exact ⟨rfl, rfl⟩

theorem gwpLoop_light (m : Model) (draws : ℕ → ℚ) (doc : List ℤ) (resampling : Bool) :
    ∀ (rest : List ℤ) (limit : ℕ) (st st' : GwpSt),
      gwpLoop m draws doc resampling rest limit st = some st' →
      st'.word_probabilities.length = st.word_probabilities.length ∧
      st'.tokens_so_far = st.tokens_so_far + countInVocab m rest ∧
      (∀ j, j < limit ∨ limit + rest.length ≤ j →
        st'.word_probabilities.getD j 0 = st.word_probabilities.getD j 0) := by
  intro rest
  induction rest with
  | nil =>
    intro limit st st' h
    obtain rfl : st = st' := by simpa [gwpLoop] using h
    exact ⟨rfl, by rw [countInVocab]; simp, fun j _ => rfl⟩
  | cons tok rest' ih =>
    intro limit st st' h
    rw [gwpLoop] at h
    cases hsw0 : (if resampling then gwpSweep m draws ((doc.take limit).enum) st
        else some st) with
    | none =>
      rw [hsw0] at h
      exact absurd h (by simp)
    | some st1 =>
      rw [hsw0] at h
      simp only at h
      have hlight1 : st1.word_probabilities = st.word_probabilities ∧
          st1.tokens_so_far = st.tokens_so_far := by
        by_cases hrs : resampling
        · rw [if_pos hrs] at hsw0
          exact gwpSweep_light m draws _ st st1 hsw0
        · rw [if_neg hrs] at hsw0
          obtain rfl : st = st1 := by simpa using hsw0
          exact ⟨rfl, rfl⟩
      cases hfr : frontierStep m draws st1 limit tok with
      | none =>
        rw [hfr] at h
        exact absurd h (by simp)
      | some st2 =>
        rw [hfr] at h
        simp only at h
        obtain ⟨hfo, hfi⟩ := frontierStep_light m draws st1 st2 limit tok hfr
        obtain ⟨ihlen, ihtok, ihwp⟩ := ih (limit + 1) st2 st' h
        by_cases hoov : oov m tok
        · obtain rfl := hfo hoov
          refine ⟨ihlen.trans (by rw [hlight1.1]), ?_, ?_⟩
          · rw [ihtok, hlight1.2, countInVocab_cons, if_pos hoov]
            omega
          · intro j hj
            rw [List.length_cons] at hj
            rw [ihwp j (by omega), hlight1.1]
        · obtain ⟨hwp2, htk2⟩ := hfi hoov
          refine ⟨?_, ?_, ?_⟩
          · rw [ihlen, hwp2, List.length_set, hlight1.1]
          · rw [ihtok, htk2, hlight1.2, countInVocab_cons, if_neg hoov]
            omega
          · intro j hj
            rw [List.length_cons] at hj
            rw [ihwp j (by omega), hwp2,
              getD_set_ne _ _ _ (by omega), hlight1.1]

theorem gwpLoop_append (m : Model) (draws : ℕ → ℚ) (doc : List ℤ) (resampling : Bool) :
    ∀ (l1 l2 : List ℤ) (limit : ℕ) (st : GwpSt),
      gwpLoop m draws doc resampling (l1 ++ l2) limit st =
        (gwpLoop m draws doc resampling l1 limit st).bind
          (gwpLoop m draws doc resampling l2 (limit + l1.length)) := by
  intro l1
  induction l1 with
  | nil =>
    intro l2 limit st
    rw [List.nil_append, gwpLoop]
    simp
  | cons tok rest ih =>
    intro l2 limit st
    rw [List.cons_append, gwpLoop, gwpLoop]
    cases hsw0 : (if resampling then gwpSweep m draws ((doc.take limit).enum) st
        else some st) with
    | none => rfl
    | some st1 =>
      simp only
      cases hfr : frontierStep m draws st1 limit tok with
      | none => rfl
      | some st2 =>
        simp only
        rw [ih l2 (limit + 1) st2, List.length_cons]
        have harith : limit + 1 + rest.length = limit + (rest.length + 1) := by omega
        rw [harith]

theorem getD_replicate {α : Type} : ∀ (n j : ℕ) (a : α),
    (List.replicate n a).getD j a = a := by
  intro n
  induction n with
  | zero => intro j a; rfl
  | succ k ih =>
    intro j a
    rw [List.replicate_succ]
    cases j with
    | zero => rfl
    | succ i => exact ih i a

/-- C1: for every document, `get_word_probabilities` returns a list whose
length is the document length; an out-of-vocabulary position holds 0;
an in-vocabulary position `pos` holds exactly
`(smoothing_only_mass + topic_beta_mass + topic_term_mass) /
(alpha_sum + tokens_so_far)` where the masses are taken in the state
reached just before scoring `pos` (after the prefix run and the optional
resampling sweep) and `tokens_so_far` is the number of in-vocabulary
tokens at strictly earlier positions. -/
theorem C1_marginal_probability_recording (m : Model) (draws : ℕ → ℚ) (cc : List ℚ)
    (ri : ℕ) (doc : List ℤ) (resampling : Bool) (probs cc' : List ℚ) (ri' : ℕ)
    (h : get_word_probabilities m draws cc ri doc resampling = some (probs, cc', ri')) :
    probs.length = doc.length ∧
    ∀ pos, pos < doc.length →
      (oov m (doc.getD pos 0) → probs.getD pos 0 = 0) ∧
      (¬ oov m (doc.getD pos 0) →
        ∃ st1, gwpBeforeFrontier m draws cc ri doc resampling pos = some st1 ∧
          st1.tokens_so_far = countInVocab m (doc.take pos) ∧
          probs.getD pos 0 = frontierMass m st1 (doc.getD pos 0) /
            (m.alpha_sum + (countInVocab m (doc.take pos) : ℚ))) := by
  rw [get_word_probabilities] at h
  cases hloop : gwpLoop m draws doc resampling doc 0
      { state := initialLocalState m doc.length
        cached_coefficients := cc
        rng_index := ri
        tokens_so_far := 0
        word_probabilities := List.replicate doc.length 0 } with
  | none =>
    rw [hloop] at h
    exact absurd h (by simp)
  | some stf =>
    rw [hloop] at h
    simp only at h
    have hprobs : probs = stf.word_probabilities := by
      have h2 := Option.some.inj h
      exact (congrArg (fun x => x.1) h2).symm
    have hloop' : gwpLoop m draws doc resampling doc 0 (gwpStart m cc ri doc) = some stf :=
      hloop
    have hlen0 : (gwpStart m cc ri doc).word_probabilities.length = doc.length := by
      show (List.replicate doc.length (0 : ℚ)).length = doc.length
      rw [List.length_replicate]
    obtain ⟨hflen, -, -⟩ := gwpLoop_light m draws doc resampling doc 0 _ stf hloop'
    have hplen : probs.length = doc.length := by rw [hprobs, hflen, hlen0]
    refine ⟨hplen, ?_⟩
    intro pos hpos
    have happ := gwpLoop_append m draws doc resampling (doc.take pos) (doc.drop pos) 0
      (gwpStart m cc ri doc)
    rw [List.take_append_drop] at happ
    rw [hloop'] at happ
    have htklen : (doc.take pos).length = pos := by
      rw [List.length_take]
      omega
    rw [htklen, Nat.zero_add] at happ
    cases hA : gwpLoop m draws doc resampling (doc.take pos) 0 (gwpStart m cc ri doc) with
    | none =>
      rw [hA] at happ
      exact absurd happ.symm (by simp)
    | some stA =>
      rw [hA, Option.some_bind] at happ
      have hdrop : doc.drop pos = doc.getD pos 0 :: doc.drop (pos + 1) := by
        rw [List.drop_eq_getElem_cons hpos, List.getD_eq_getElem doc 0 hpos]
      rw [hdrop, gwpLoop] at happ
      cases hsw : (if resampling then gwpSweep m draws ((doc.take pos).enum) stA
          else some stA) with
      | none =>
        rw [hsw] at happ
        exact absurd happ (by simp)
      | some st1 =>
        rw [hsw] at happ
        simp only at happ
        have hBF : gwpBeforeFrontier m draws cc ri doc resampling pos = some st1 := by
          rw [gwpBeforeFrontier, hA]
          exact hsw
        cases hfr : frontierStep m draws st1 pos (doc.getD pos 0) with
        | none =>
          rw [hfr] at happ
          exact absurd happ (by simp)
        | some st2 =>
          rw [hfr] at happ
          simp only at happ
          have hrest : gwpLoop m draws doc resampling (doc.drop (pos + 1)) (pos + 1) st2
              = some stf := happ.symm
          obtain ⟨hAlen, hAtok, hAwp⟩ :=
            gwpLoop_light m draws doc resampling (doc.take pos) 0 _ stA hA
          have hswlight : st1.word_probabilities = stA.word_probabilities ∧
              st1.tokens_so_far = stA.tokens_so_far := by
            by_cases hrs : resampling
            · rw [if_pos hrs] at hsw
              exact gwpSweep_light m draws _ stA st1 hsw
            · rw [if_neg hrs] at hsw
              obtain rfl : stA = st1 := by simpa using hsw
              exact ⟨rfl, rfl⟩
          obtain ⟨hfo, hfi⟩ := frontierStep_light m draws st1 st2 pos (doc.getD pos 0) hfr
          obtain ⟨-, -, hrwp⟩ :=
            gwpLoop_light m draws doc resampling (doc.drop (pos + 1)) (pos + 1) st2 stf hrest
          have htok1 : st1.tokens_so_far = countInVocab m (doc.take pos) := by
            rw [hswlight.2, hAtok]
            show 0 + countInVocab m (doc.take pos) = countInVocab m (doc.take pos)
            omega
          have hwpA_pos : stA.word_probabilities.getD pos 0 = 0 := by
            have hout := hAwp pos (Or.inr (by rw [htklen]; omega))
            rw [hout]
            show (List.replicate doc.length (0 : ℚ)).getD pos 0 = 0
            exact getD_replicate _ _ _
          have hposlen : pos < st1.word_probabilities.length := by
            rw [hswlight.1, hAlen, hlen0]
            exact hpos
          refine ⟨?_, ?_⟩
          · intro hoov
            obtain rfl := hfo hoov
            rw [hprobs, hrwp pos (Or.inl (by omega)), hswlight.1, hwpA_pos]
          · intro hvoc
            obtain ⟨hwp2, htk2⟩ := hfi hvoc
            refine ⟨st1, hBF, htok1, ?_⟩
            rw [hprobs, hrwp pos (Or.inl (by omega)), hwp2,
              getD_set_self _ _ _ _ hposlen, hswlight.1, hwpA_pos, htok1, zero_add]

theorem exGwp_eval :
    get_word_probabilities exModel (fun _ => 0) exModel.cachedCoefficients0 0
        [0, -3, 1, 7] false
      = some ([151/502, 0, 289/753, 0], exModel.cachedCoefficients0, 2) := by
  norm_num [get_word_probabilities, gwpLoop, frontierStep, sweepStep, gwpSweep, setWordType,
    update_topic_scores, updateScoresLoop, sample_new_topic, termLoop, betaLoop, smoothLoop,
    add_topic_and_update_state_and_coefficients,
    add_or_remove_topic_and_update_state_and_coefficients,
    maintain_dense_index_addition, maintain_dense_index_elimination, denseInsertLoop,
    denseFindLoop, denseShiftLoop, initialLocalState, resetLoop, oov,
    Model.cachedCoefficients0, Model.smoothing_only_mass, Model.denom, Model.beta_sum,
    Model.alpha_sum, exModel, List.range_succ, List.getD, List.replicate, List.set]

theorem C1_marginal_probability_recording_witness :
    ([151/502, 0, 289/753, 0] : List ℚ).length = ([0, -3, 1, 7] : List ℤ).length :=
  (C1_marginal_probability_recording exModel (fun _ => 0)
      exModel.cachedCoefficients0 0 [0, -3, 1, 7] false
      [151/502, 0, 289/753, 0] exModel.cachedCoefficients0 2 exGwp_eval).1

theorem gwp_probs_length (m : Model) (draws : ℕ → ℚ) (cc : List ℚ) (ri : ℕ)
    (doc : List ℤ) (resampling : Bool) (probs cc' : List ℚ) (ri' : ℕ)
    (h : get_word_probabilities m draws cc ri doc resampling = some (probs, cc', ri')) :
    probs.length = doc.length := by
  rw [get_word_probabilities] at h
  cases hloop : gwpLoop m draws doc resampling doc 0
      { state := initialLocalState m doc.length
        cached_coefficients := cc
        rng_index := ri
        tokens_so_far := 0
        word_probabilities := List.replicate doc.length 0 } with
  | none =>
    rw [hloop] at h
    exact absurd h (by simp)
  | some stf =>
    rw [hloop] at h
    simp only at h
    have hprobs : probs = stf.word_probabilities :=
      (congrArg (fun x => x.1) (Option.some.inj h)).symm
    have hloop' : gwpLoop m draws doc resampling doc 0 (gwpStart m cc ri doc) = some stf :=
      hloop
    obtain ⟨hflen, -, -⟩ := gwpLoop_light m draws doc resampling doc 0 _ stf hloop'
    rw [hprobs, hflen]
    show (List.replicate doc.length (0 : ℚ)).length = doc.length
    rw [List.length_replicate]

theorem runParticles_lengths (m : Model) (draws : ℕ → ℚ) (doc : List ℤ)
    (resampling : Bool) :
    ∀ (k : ℕ) (cc : List ℚ) (ri : ℕ) (pvs : List (List ℚ)) (cc2 : List ℚ) (ri2 : ℕ),
      runParticles m draws doc resampling k cc ri = some (pvs, cc2, ri2) →
      ∀ v ∈ pvs, v.length = doc.length := by
  intro k
  induction k with
  | zero =>
    intro cc ri pvs cc2 ri2 h v hv
    obtain rfl : pvs = [] := by
      have h2 : (some ([], cc, ri) : Option (List (List ℚ) × List ℚ × ℕ))
          = some (pvs, cc2, ri2) := h
      exact (congrArg (fun x => x.1) (Option.some.inj h2)).symm
    exact absurd hv (List.not_mem_nil v)
  | succ n ih =>
    intro cc ri pvs cc2 ri2 h v hv
    rw [runParticles] at h
    cases hg : get_word_probabilities m draws cc ri doc resampling with
    | none =>
      rw [hg] at h
      exact absurd h (by simp)
    | some triple =>
      obtain ⟨w, cc1, ri1⟩ := triple
      rw [hg] at h
      simp only at h
      cases hr : runParticles m draws doc resampling n cc1 ri1 with
      | none =>
        rw [hr] at h
        exact absurd h (by simp)
      | some triple2 =>
        obtain ⟨vs, cc3, ri3⟩ := triple2
        rw [hr] at h
        simp only at h
        have hpvs : pvs = w :: vs :=
          (congrArg (fun x => x.1) (Option.some.inj h)).symm
        rw [hpvs] at hv
        rcases List.mem_cons.mp hv with rfl | hmem
        · exact gwp_probs_length m draws cc ri doc resampling v cc1 ri1 hg
        · exact ih cc1 ri1 vs cc3 ri3 hr v hmem

theorem sumParticles_zero (pvs : List (List ℚ)) (L position : ℕ)
    (hlen : ∀ v ∈ pvs, v.length = L) (hpos : L ≤ position) :
    sumParticles pvs position = 0 := by
  induction pvs with
  | nil => rfl
  | cons v rest ih =>
    rw [sumParticles, if_pos]
    · rw [hlen v (List.mem_cons_self v rest)]
      exact hpos

theorem positionsLoop_succ (lg : ℚ → ℚ) (lnp : ℚ) (pvs : List (List ℚ)) (n : ℕ) :
    positionsLoop lg lnp pvs (n + 1) =
      if 0 < sumParticles pvs n
      then positionsLoop lg lnp pvs n + (lg (sumParticles pvs n) - lnp)
      else positionsLoop lg lnp pvs n := by
  rw [positionsLoop, positionsLoop, List.range_succ, List.foldl_append]
  rfl

theorem positionsLoop_extend (lg : ℚ → ℚ) (lnp : ℚ) (pvs : List (List ℚ)) (L : ℕ)
    (h0 : ∀ position, L ≤ position → sumParticles pvs position = 0) :
    ∀ bound, L ≤ bound → positionsLoop lg lnp pvs bound = positionsLoop lg lnp pvs L := by
  intro bound
  induction bound with
  | zero =>
    intro hb
    have hL : L = 0 := by omega
    rw [hL]
  | succ k ih =>
    intro hb
    by_cases hk : L ≤ k
    · rw [positionsLoop_succ, h0 k hk, if_neg (lt_irrefl (0 : ℚ)), ih hk]
    · have hL : L = k + 1 := by omega
      rw [hL]

theorem positionsLoop_nil (lg : ℚ → ℚ) (lnp : ℚ) (bound : ℕ) :
    positionsLoop lg lnp [] bound = 0 := by
  have h0 : ∀ position, 0 ≤ position → sumParticles [] position = 0 := fun _ _ => rfl
  rw [positionsLoop_extend lg lnp [] 0 h0 bound (Nat.zero_le bound)]
  rfl

theorem foldl_max_ge (L : ℕ) :
    ∀ (pvs : List (List ℚ)) (a : ℕ), pvs ≠ [] → (∀ v ∈ pvs, v.length = L) →
      L ≤ pvs.foldl (fun acc v => max acc v.length) a := by
  intro pvs
  induction pvs with
  | nil => intro a hne _; exact absurd rfl hne
  | cons v rest ih =>
    intro a _ hlen
    rw [List.foldl_cons]
    cases rest with
    | nil =>
      rw [List.foldl_nil, hlen v (List.mem_cons_self v [])]
      exact le_max_right a L
    | cons w ws =>
      exact ih (max a v.length) (by simp)
        (fun u hu => hlen u (List.mem_cons_of_mem v hu))

theorem evalDocs_eq_ref (m : Model) (lg : ℚ → ℚ) (draws : ℕ → ℚ) (np : ℕ)
    (resampling : Bool) :
    ∀ (docs : List (List ℤ)) (total : ℚ) (maxLen : ℕ) (cc : List ℚ) (ri : ℕ),
      evalDocs m lg draws np resampling docs total maxLen cc ri =
        evalDocsRef m lg draws np resampling docs total cc ri := by
  intro docs
  induction docs with
  | nil => intro total maxLen cc ri; rfl
  | cons doc rest ih =>
    intro total maxLen cc ri
    rw [evalDocs, evalDocsRef]
    cases hr : runParticles m draws doc resampling np cc ri with
    | none => rfl
    | some triple =>
      obtain ⟨pvs, cc1, ri1⟩ := triple
      simp only
      rw [ih]
      have hlens := runParticles_lengths m draws doc resampling np cc ri pvs cc1 ri1 hr
      by_cases hpe : pvs = []
      · subst hpe
        rw [positionsLoop_nil, positionsLoop_nil]
      · have hge : doc.length ≤ pvs.foldl (fun acc v => max acc v.length) maxLen :=
          foldl_max_ge doc.length pvs maxLen hpe hlens
        rw [positionsLoop_extend lg (lg (np : ℚ)) pvs doc.length
          (fun p hp => sumParticles_zero pvs doc.length p hlens hp) _ hge]

/-- C9: `evaluate` computes the same total as the reference evaluator in
which each document's position loop runs only up to that document's own
length: the never-reset `max_len` is harmless because every particle
vector has length equal to the document length, so the extra positions
have particle sum 0 and are skipped. -/
theorem C9_evaluate_equals_reference (m : Model) (lg : ℚ → ℚ) (draws : ℕ → ℚ)
    (cc : List ℚ) (ri : ℕ) (types : List (List ℤ)) (np : ℕ) (resampling : Bool) :
    evaluate m lg draws cc ri types np resampling =
      evaluateRef m lg draws cc ri types np resampling :=
  evalDocs_eq_ref m lg draws np resampling types 0 0 cc ri

theorem gwpSweep_oov (m : Model) (draws : ℕ → ℚ) :
    ∀ (L : List (ℕ × ℤ)) (st : GwpSt), (∀ pt ∈ L, oov m pt.2) →
      gwpSweep m draws L st = some st := by
  intro L
  induction L with
  | nil => intro st _; rfl
  | cons pt rest ih =>
    intro st hoov
    obtain ⟨position, tok⟩ := pt
    rw [gwpSweep]
    have hstep : sweepStep m draws st position tok = some st := by
      rw [sweepStep, if_pos (hoov (position, tok) (List.mem_cons_self _ _))]
    rw [hstep]
    exact ih st (fun q hq => hoov q (List.mem_cons_of_mem _ hq))

theorem gwpLoop_oov (m : Model) (draws : ℕ → ℚ) (doc : List ℤ) (resampling : Bool)
    (hdoc : ∀ tok ∈ doc, oov m tok) :
    ∀ (rest : List ℤ) (limit : ℕ) (st : GwpSt), (∀ tok ∈ rest, oov m tok) →
      gwpLoop m draws doc resampling rest limit st = some st := by
  intro rest
  induction rest with
  | nil => intro limit st _; rfl
  | cons tok rest' ih =>
    intro limit st hoov
    rw [gwpLoop]
    have hsw : (if resampling then gwpSweep m draws ((doc.take limit).enum) st
        else some st) = some st := by
      by_cases hrs : resampling
      · rw [if_pos hrs]
        refine gwpSweep_oov m draws _ st ?_
        intro pt hpt
        obtain ⟨-, hlt, hget⟩ := enum_take_facts doc limit pt hpt
        rw [show pt.2 = doc.getD pt.1 0 from hget.symm]
        exact hdoc _ (getD_mem doc pt.1 0 hlt)
      · rw [if_neg hrs]
    rw [hsw]
    simp only
    have hfr : frontierStep m draws st limit tok = some st := by
      rw [frontierStep, if_pos (hoov tok (List.mem_cons_self _ _))]
    rw [hfr]
    simp only
    exact ih (limit + 1) st (fun u hu => hoov u (List.mem_cons_of_mem _ hu))

theorem gwp_oov (m : Model) (draws : ℕ → ℚ) (cc : List ℚ) (ri : ℕ) (doc : List ℤ)
    (resampling : Bool) (hdoc : ∀ tok ∈ doc, oov m tok) :
    get_word_probabilities m draws cc ri doc resampling
      = some (List.replicate doc.length 0, cc, ri) := by
  rw [get_word_probabilities]
  rw [gwpLoop_oov m draws doc resampling hdoc doc 0 _ hdoc]
  rfl

theorem runParticles_oov (m : Model) (draws : ℕ → ℚ) (doc : List ℤ)
    (resampling : Bool) (hdoc : ∀ tok ∈ doc, oov m tok) :
    ∀ (k : ℕ) (cc : List ℚ) (ri : ℕ),
      runParticles m draws doc resampling k cc ri
        = some (List.replicate k (List.replicate doc.length 0), cc, ri) := by
  intro k
  induction k with
  | zero => intro cc ri; rfl
  | succ n ih =>
    intro cc ri
    rw [runParticles, gwp_oov m draws cc ri doc resampling hdoc]
    simp only
    rw [ih cc ri]
    rfl

theorem sumParticles_all_zero (position : ℕ) :
    ∀ (pvs : List (List ℚ)), (∀ v ∈ pvs, ∀ j, v.getD j 0 = 0) →
      sumParticles pvs position = 0 := by
  intro pvs
  induction pvs with
  | nil => intro _; rfl
  | cons v rest ih =>
    intro hz
    rw [sumParticles]
    split
    · rfl
    · rw [hz v (List.mem_cons_self _ _) position,
        ih (fun u hu => hz u (List.mem_cons_of_mem _ hu)), zero_add]

theorem positionsLoop_all_zero (lg : ℚ → ℚ) (lnp : ℚ) (pvs : List (List ℚ))
    (hz : ∀ v ∈ pvs, ∀ j, v.getD j 0 = 0) :
    ∀ bound, positionsLoop lg lnp pvs bound = 0 := by
  intro bound
  induction bound with
  | zero => rfl
  | succ k ih =>
    rw [positionsLoop_succ, sumParticles_all_zero k pvs hz,
      if_neg (lt_irrefl (0 : ℚ)), ih]

/-- C6: prepending a document whose every token is out of vocabulary to
the corpus leaves the result of `evaluate` unchanged, for any positive
particle count: its particle vectors are all zero, every per-position sum
is 0 and is skipped by the positivity guard, and the coefficient array and
sampler cursor pass through untouched. -/
theorem C6_all_oov_document_contributes_zero (m : Model) (lg : ℚ → ℚ)
    (draws : ℕ → ℚ) (cc : List ℚ) (ri : ℕ) (doc : List ℤ) (rest : List (List ℤ))
    (np : ℕ) (resampling : Bool)
    (hdoc : ∀ tok ∈ doc, oov m tok) (hnp : 0 < np) :
    evaluate m lg draws cc ri (doc :: rest) np resampling
      = evaluate m lg draws cc ri rest np resampling := by
  rw [evaluate, evaluate, evalDocs,
    runParticles_oov m draws doc resampling hdoc np cc ri]
  simp only
  have hz : ∀ v ∈ List.replicate np (List.replicate doc.length (0 : ℚ)),
      ∀ j, v.getD j 0 = 0 := by
    intro v hv j
    rw [List.eq_of_mem_replicate hv]
    exact getD_replicate _ _ _
  rw [positionsLoop_all_zero lg (lg (np : ℚ)) _ hz, add_zero]
  rw [evalDocs_eq_ref, evalDocs_eq_ref]

theorem C6_all_oov_document_contributes_zero_witness :
    (∀ tok ∈ ([-3, 7] : List ℤ), oov exModel tok) ∧ 0 < 1 ∧
    evaluate exModel (fun x => x) (fun _ => 0) [] 0 [[-3, 7]] 1 false
      = evaluate exModel (fun x => x) (fun _ => 0) [] 0 [] 1 false :=
  ⟨by decide, by decide,
    C6_all_oov_document_contributes_zero exModel (fun x => x) (fun _ => 0) [] 0
      [-3, 7] [] 1 false (by decide) (by decide)⟩

/-- C7: when `get_word_probabilities` is called with the coefficient
array holding its construction-time values, the array it leaves behind is
identical to those values: every topic's cached coefficient again equals
`alpha[topic] / (global_count[topic] + beta_sum)`, the zero-local-count
value computed by the constructor. -/
theorem C7_cached_coefficients_restored (m : Model) (draws : ℕ → ℚ) (ri : ℕ)
    (doc : List ℤ) (resampling : Bool) (probs cc' : List ℚ) (ri' : ℕ)
    (hw : Wf m)
    (h : get_word_probabilities m draws m.cachedCoefficients0 ri doc resampling
      = some (probs, cc', ri')) :
    cc' = m.cachedCoefficients0 ∧
    ∀ t, t < m.n_topics →
      cc'.getD t 0 = m.alpha.getD t 0 / ((m.topic_counts.getD t 0 : ℚ) + m.beta_sum) := by
  have hres := gwp_coeffs_restored m draws ri doc resampling probs cc' ri' hw h
  refine ⟨hres, ?_⟩
  intro t ht
  rw [hres, cachedCoefficients0_getD m t ht, Model.denom]

theorem C7_cached_coefficients_restored_witness :
    Wf exModel ∧
    exModel.cachedCoefficients0 = exModel.cachedCoefficients0 :=
  ⟨by decide, (C7_cached_coefficients_restored exModel (fun _ => 0) 0 [0, -3, 1, 7]
      false [151/502, 0, 289/753, 0] exModel.cachedCoefficients0 2
      (by decide) exGwp_eval).1⟩

theorem sweepStep_shift (m : Model) (draws1 draws2 : ℕ → ℚ) (d : ℕ)
    (hag : ∀ k, draws2 (k + d) = draws1 k) (st : GwpSt) (p : ℕ) (tok : ℤ) :
    sweepStep m draws2 (shiftSt d st) p tok =
      Option.map (shiftSt d) (sweepStep m draws1 st p tok) := by
  rw [sweepStep, sweepStep]
  by_cases hoov : oov m tok
  · rw [if_pos hoov, if_pos hoov]
    rfl
  · rw [if_neg hoov, if_neg hoov]
    simp only [shiftSt, hag]
    cases hres : sample_new_topic m
        (update_topic_scores
          (remove_topic_and_update_state_and_coefficients m st.cached_coefficients
            (setWordType m st.state tok)
            ((setWordType m st.state tok).doc_topics.getD p 0).toNat).1
          (remove_topic_and_update_state_and_coefficients m st.cached_coefficients
            (setWordType m st.state tok)
            ((setWordType m st.state tok).doc_topics.getD p 0).toNat).2)
        (draws1 st.rng_index) with
    | none => rfl
    | some nt =>
      simp only [Option.map, shiftSt, Option.some.injEq, GwpSt.mk.injEq]
      refine ⟨trivial, trivial, by omega, trivial, trivial⟩

theorem gwpSweep_shift (m : Model) (draws1 draws2 : ℕ → ℚ) (d : ℕ)
    (hag : ∀ k, draws2 (k + d) = draws1 k) :
    ∀ (L : List (ℕ × ℤ)) (st : GwpSt),
      gwpSweep m draws2 L (shiftSt d st) =
        Option.map (shiftSt d) (gwpSweep m draws1 L st) := by
  intro L
  induction L with
  | nil => intro st; rfl
  | cons pt rest ih =>
    intro st
    obtain ⟨position, tok⟩ := pt
    rw [gwpSweep, gwpSweep, sweepStep_shift m draws1 draws2 d hag]
    cases hstep : sweepStep m draws1 st position tok with
    | none => rfl
    | some st1 =>
      simp only [Option.map_some']
      exact ih st1

theorem frontierStep_shift (m : Model) (draws1 draws2 : ℕ → ℚ) (d : ℕ)
    (hag : ∀ k, draws2 (k + d) = draws1 k) (st : GwpSt) (limit : ℕ) (tok : ℤ) :
    frontierStep m draws2 (shiftSt d st) limit tok =
      Option.map (shiftSt d) (frontierStep m draws1 st limit tok) := by
  rw [frontierStep, frontierStep]
  by_cases hoov : oov m tok
  · rw [if_pos hoov, if_pos hoov]
    rfl
  · rw [if_neg hoov, if_neg hoov]
    simp only [shiftSt, hag]
    cases hres : sample_new_topic m
        (update_topic_scores st.cached_coefficients (setWordType m st.state tok))
        (draws1 st.rng_index) with
    | none => rfl
    | some nt =>
      simp only [Option.map, shiftSt, Option.some.injEq, GwpSt.mk.injEq]
      refine ⟨trivial, trivial, by omega, trivial, trivial⟩

theorem gwpLoop_shift (m : Model) (draws1 draws2 : ℕ → ℚ) (doc : List ℤ)
    (resampling : Bool) (d : ℕ) (hag : ∀ k, draws2 (k + d) = draws1 k) :
    ∀ (rest : List ℤ) (limit : ℕ) (st : GwpSt),
      gwpLoop m draws2 doc resampling rest limit (shiftSt d st) =
        Option.map (shiftSt d) (gwpLoop m draws1 doc resampling rest limit st) := by
  intro rest
  induction rest with
  | nil => intro limit st; rfl
  | cons tok rest' ih =>
    intro limit st
    rw [gwpLoop, gwpLoop]
    have hsw : (if resampling then gwpSweep m draws2 ((doc.take limit).enum) (shiftSt d st)
        else some (shiftSt d st)) =
        Option.map (shiftSt d)
          (if resampling then gwpSweep m draws1 ((doc.take limit).enum) st else some st) := by
      by_cases hrs : resampling
      · rw [if_pos hrs, if_pos hrs, gwpSweep_shift m draws1 draws2 d hag]
      · rw [if_neg hrs, if_neg hrs]
        rfl
    rw [hsw]
    cases hsw1 : (if resampling then gwpSweep m draws1 ((doc.take limit).enum) st
        else some st) with
    | none => rfl
    | some st1 =>
      simp only [Option.map_some']
      rw [frontierStep_shift m draws1 draws2 d hag]
      cases hfr : frontierStep m draws1 st1 limit tok with
      | none => rfl
      | some st2 =>
        simp only [Option.map_some']
        exact ih (limit + 1) st2

theorem gwp_shift (m : Model) (draws1 draws2 : ℕ → ℚ) (d : ℕ)
    (hag : ∀ k, draws2 (k + d) = draws1 k) (cc : List ℚ) (ri : ℕ) (doc : List ℤ)
    (resampling : Bool) :
    get_word_probabilities m draws2 cc (ri + d) doc resampling =
      Option.map (fun r => (r.1, r.2.1, r.2.2 + d))
        (get_word_probabilities m draws1 cc ri doc resampling) := by
  rw [get_word_probabilities, get_word_probabilities]
  have hst : ({ state := initialLocalState m doc.length
                cached_coefficients := cc
                rng_index := ri + d
                tokens_so_far := 0
                word_probabilities := List.replicate doc.length 0 } : GwpSt) =
      shiftSt d { state := initialLocalState m doc.length
                  cached_coefficients := cc
                  rng_index := ri
                  tokens_so_far := 0
                  word_probabilities := List.replicate doc.length 0 } := rfl
  rw [hst, gwpLoop_shift m draws1 draws2 doc resampling d hag]
  cases hloop : gwpLoop m draws1 doc resampling doc 0
      { state := initialLocalState m doc.length
        cached_coefficients := cc
        rng_index := ri
        tokens_so_far := 0
        word_probabilities := List.replicate doc.length 0 } with
  | none => rfl
  | some stf => rfl

theorem runParticles_one (m : Model) (draws : ℕ → ℚ) (doc : List ℤ)
    (resampling : Bool) (cc : List ℚ) (ri : ℕ) :
    runParticles m draws doc resampling 1 cc ri =
      match get_word_probabilities m draws cc ri doc resampling with
      | none => none
      | some r => some ([r.1], r.2.1, r.2.2) := by
  show (match get_word_probabilities m draws cc ri doc resampling with
    | none => none
    | some (v, cc1, ri1) =>
      match runParticles m draws doc resampling 0 cc1 ri1 with
      | none => none
      | some (vs, cc2, ri2) => some (v :: vs, cc2, ri2)) = _
  cases hg : get_word_probabilities m draws cc ri doc resampling with
  | none => rfl
  | some r =>
    obtain ⟨v, cc1, ri1⟩ := r
    rfl

/-- C10: with a single particle, no resampling, and a draw stream that
repeats with the number of draws one run consumes (`d`), a second call to
`evaluate` on the same document — starting from the coefficient array and
sampler cursor the first call left behind — returns the same
log-likelihood total and coefficient array again: the result is a
deterministic function of the model, the document and the draw stream. -/
theorem C10_deterministic_repeat_run (m : Model) (lg : ℚ → ℚ) (draws : ℕ → ℚ)
    (doc : List ℤ) (ri d : ℕ) (total1 : ℚ) (cc1 : List ℚ)
    (hw : Wf m)
    (h1 : evaluate m lg draws m.cachedCoefficients0 ri [doc] 1 false
      = some (total1, cc1, ri + d))
    (hrep : ∀ k, draws (k + d) = draws k) :
    evaluate m lg draws cc1 (ri + d) [doc] 1 false
      = some (total1, cc1, (ri + d) + d) := by
  rw [evaluate, evalDocs, runParticles_one] at h1
  cases hg : get_word_probabilities m draws m.cachedCoefficients0 ri doc false with
  | none =>
    rw [hg] at h1
    exact absurd h1 (by simp)
  | some r =>
    obtain ⟨v, cc2, ri2⟩ := r
    rw [hg] at h1
    simp only at h1
    rw [evalDocs] at h1
    have hcc2 : cc2 = m.cachedCoefficients0 :=
      gwp_coeffs_restored m draws ri doc false v cc2 ri2 hw hg
    have h2 := Option.some.inj h1
    have htot : (0 : ℚ) + positionsLoop lg (lg ((1 : ℕ) : ℚ)) [v]
        (List.foldl (fun acc w => max acc w.length) 0 [v]) = total1 :=
      congrArg (fun x => x.1) h2
    have hccEq : cc2 = cc1 := congrArg (fun x => x.2.1) h2
    have hriEq : ri2 = ri + d := congrArg (fun x => x.2.2) h2
    rw [evaluate, evalDocs, runParticles_one]
    have hg2 : get_word_probabilities m draws cc1 (ri + d) doc false
        = some (v, cc2, ri2 + d) := by
      rw [← hccEq, hcc2,
        gwp_shift m draws draws d hrep m.cachedCoefficients0 ri doc false, hg]
      show some (v, cc2, ri2 + d) = some (v, m.cachedCoefficients0, ri2 + d)
      rw [hcc2]
    rw [hg2]
    simp only
    rw [evalDocs]
    rw [htot, hccEq, hriEq]

theorem exEval_eval :
    evaluate exModel (fun x => x) (fun _ => 0) exModel.cachedCoefficients0 0
        [[0, -3, 1, 7]] 1 false
      = some (-1981/1506, exModel.cachedCoefficients0, 0 + 2) := by
  rw [evaluate, evalDocs, runParticles_one, exGwp_eval]
  simp only
  rw [evalDocs]
  norm_num [positionsLoop, sumParticles, List.range_succ, List.getD, List.foldl,
    Model.cachedCoefficients0, Model.denom, Model.beta_sum, exModel]

theorem C10_deterministic_repeat_run_witness :
    evaluate exModel (fun x => x) (fun _ => 0) exModel.cachedCoefficients0 (0 + 2)
        [[0, -3, 1, 7]] 1 false
      = some (-1981/1506, exModel.cachedCoefficients0, (0 + 2) + 2) :=
  C10_deterministic_repeat_run exModel (fun x => x) (fun _ => 0) [0, -3, 1, 7] 0 2
    (-1981/1506) exModel.cachedCoefficients0 (by decide) exEval_eval (fun k => rfl)

theorem applyOps_SInv (m : Model) :
    ∀ (ops : List (Bool × ℕ × ℕ)) (p : List ℚ × LocalState),
      SInv m p.1 p.2 → ValidOps m ops p →
      SInv m (applyOps m ops p).1 (applyOps m ops p).2 := by
  intro ops
  induction ops with
  | nil => intro p h _; exact h
  | cons op rest ih =>
    intro p h hval
    obtain ⟨incr, topic, position⟩ := op
    rw [ValidOps] at hval
    obtain ⟨ht, hrm, hrest⟩ := hval
    rw [applyOps]
    cases incr with
    | false =>
      have hpos := hrm rfl
      have hpair := remove_SInv m p.1 p.2 topic h ht hpos
      have hS1 : SInv m (remove_topic_and_update_state_and_coefficients m p.1 p.2 topic).1
          (remove_topic_and_update_state_and_coefficients m p.1 p.2 topic).2 := hpair.1
      have hrest' : ValidOps m rest
          (remove_topic_and_update_state_and_coefficients m p.1 p.2 topic) := hrest
      exact ih _ hS1 hrest'
    | true =>
      have hS' := SInv_setDocTopics m p.1 p.2 (p.2.doc_topics.set position (topic : ℤ)) h
      have hpair := add_SInv m p.1
        { p.2 with doc_topics := p.2.doc_topics.set position (topic : ℤ) } topic hS' ht
      have hS1 : SInv m (add_topic_and_update_state_and_coefficients m p.1 p.2 topic position).1
          (add_topic_and_update_state_and_coefficients m p.1 p.2 topic position).2 := hpair.1
      have hrest' : ValidOps m rest
          (add_topic_and_update_state_and_coefficients m p.1 p.2 topic position) := hrest
      exact ih _ hS1 hrest'

/-- C3: after any valid sequence of one-unit add/remove operations from
the all-zero local state, the dense active-topic list (the first
`non_zero_topics` entries of `topic_index`) is strictly ascending, has no
duplicates, contains exactly the in-range topics with nonzero local
count, and the stored active count equals the list's length. -/
theorem C3_dense_index_invariant (m : Model) (docLen : ℕ) (ops : List (Bool × ℕ × ℕ))
    (hval : ValidOps m ops (m.cachedCoefficients0, initialLocalState m docLen)) :
    ((applyOps m ops (m.cachedCoefficients0, initialLocalState m docLen)).2.topic_index.take
      (applyOps m ops (m.cachedCoefficients0, initialLocalState m docLen)).2.non_zero_topics).Sorted (· < ·) ∧
    ((applyOps m ops (m.cachedCoefficients0, initialLocalState m docLen)).2.topic_index.take
      (applyOps m ops (m.cachedCoefficients0, initialLocalState m docLen)).2.non_zero_topics).Nodup ∧
    (∀ x : ℤ, x ∈ (applyOps m ops (m.cachedCoefficients0, initialLocalState m docLen)).2.topic_index.take
        (applyOps m ops (m.cachedCoefficients0, initialLocalState m docLen)).2.non_zero_topics ↔
      0 ≤ x ∧ x.toNat < m.n_topics ∧
        (applyOps m ops (m.cachedCoefficients0, initialLocalState m docLen)).2.topic_counts.getD x.toNat 0 ≠ 0) ∧
    (applyOps m ops (m.cachedCoefficients0, initialLocalState m docLen)).2.non_zero_topics
      = ((applyOps m ops (m.cachedCoefficients0, initialLocalState m docLen)).2.topic_index.take
        (applyOps m ops (m.cachedCoefficients0, initialLocalState m docLen)).2.non_zero_topics).length := by
  have hS := applyOps_SInv m ops (m.cachedCoefficients0, initialLocalState m docLen)
    (SInv_initial m docLen) hval
  refine ⟨hS.sorted, hS.sorted.nodup, hS.mem, ?_⟩
  rw [List.length_take]
  have h1 := hS.nzt_le
  have h2 := hS.ti_len
  omega

theorem C3_dense_index_invariant_witness :
    ((applyOps exModel [(true, 1, 0), (true, 0, 1), (false, 1, 0)]
        (exModel.cachedCoefficients0, initialLocalState exModel 2)).2.topic_index.take
      (applyOps exModel [(true, 1, 0), (true, 0, 1), (false, 1, 0)]
        (exModel.cachedCoefficients0, initialLocalState exModel 2)).2.non_zero_topics).Sorted (· < ·) :=
  (C3_dense_index_invariant exModel 2 [(true, 1, 0), (true, 0, 1), (false, 1, 0)]
    (by decide)).1

/-- C8: from any state satisfying the running invariant, adding a topic
at a position and then removing the same topic restores the local count
array, the dense active-topic list and the active count, and the shared
coefficient array, exactly to their values before the add. -/
theorem C8_add_then_remove_restores (m : Model) (cc : List ℚ) (s : LocalState)
    (topic position : ℕ) (h : SInv m cc s) (ht : topic < m.n_topics) :
    (remove_topic_and_update_state_and_coefficients m
        (add_topic_and_update_state_and_coefficients m cc s topic position).1
        (add_topic_and_update_state_and_coefficients m cc s topic position).2
        topic).2.topic_counts = s.topic_counts ∧
    (remove_topic_and_update_state_and_coefficients m
        (add_topic_and_update_state_and_coefficients m cc s topic position).1
        (add_topic_and_update_state_and_coefficients m cc s topic position).2
        topic).2.topic_index.take
      (remove_topic_and_update_state_and_coefficients m
        (add_topic_and_update_state_and_coefficients m cc s topic position).1
        (add_topic_and_update_state_and_coefficients m cc s topic position).2
        topic).2.non_zero_topics = s.topic_index.take s.non_zero_topics ∧
    (remove_topic_and_update_state_and_coefficients m
        (add_topic_and_update_state_and_coefficients m cc s topic position).1
        (add_topic_and_update_state_and_coefficients m cc s topic position).2
        topic).2.non_zero_topics = s.non_zero_topics ∧
    (remove_topic_and_update_state_and_coefficients m
        (add_topic_and_update_state_and_coefficients m cc s topic position).1
        (add_topic_and_update_state_and_coefficients m cc s topic position).2
        topic).1 = cc := by
  have hclen : topic < s.topic_counts.length := by rw [h.tc_len]; exact ht
  have hcclen : topic < cc.length := by rw [h.cc_len]; exact ht
  set c := s.topic_counts.getD topic 0 with hc0
  have hS' : SInv m cc { s with doc_topics := s.doc_topics.set position (topic : ℤ) } :=
    SInv_setDocTopics m cc s _ h
  have hadd := add_SInv m cc
    { s with doc_topics := s.doc_topics.set position (topic : ℤ) } topic hS' ht
  have hS1 : SInv m (add_topic_and_update_state_and_coefficients m cc s topic position).1
      (add_topic_and_update_state_and_coefficients m cc s topic position).2 := hadd.1
  have hcounts1 : (add_topic_and_update_state_and_coefficients m cc s topic position).2.topic_counts
      = s.topic_counts.set topic (c + 1) := hadd.2.1
  have hgetD1 : (add_topic_and_update_state_and_coefficients m cc s topic position).2.topic_counts.getD topic 0
      = c + 1 := by
    rw [hcounts1]
    exact getD_set_self _ _ _ _ hclen
  have hpos1 : 0 < (add_topic_and_update_state_and_coefficients m cc s topic position).2.topic_counts.getD topic 0 := by
    rw [hgetD1]
    have := h.nonneg topic
    omega
  have hrem := remove_SInv m (add_topic_and_update_state_and_coefficients m cc s topic position).1
    (add_topic_and_update_state_and_coefficients m cc s topic position).2 topic hS1 ht hpos1
  have hS2 : SInv m (remove_topic_and_update_state_and_coefficients m
        (add_topic_and_update_state_and_coefficients m cc s topic position).1
        (add_topic_and_update_state_and_coefficients m cc s topic position).2 topic).1
      (remove_topic_and_update_state_and_coefficients m
        (add_topic_and_update_state_and_coefficients m cc s topic position).1
        (add_topic_and_update_state_and_coefficients m cc s topic position).2 topic).2 := hrem.1
  have hcounts2 : (remove_topic_and_update_state_and_coefficients m
        (add_topic_and_update_state_and_coefficients m cc s topic position).1
        (add_topic_and_update_state_and_coefficients m cc s topic position).2 topic).2.topic_counts
      = s.topic_counts := by
    have h2 : (remove_topic_and_update_state_and_coefficients m
          (add_topic_and_update_state_and_coefficients m cc s topic position).1
          (add_topic_and_update_state_and_coefficients m cc s topic position).2 topic).2.topic_counts
        = (add_topic_and_update_state_and_coefficients m cc s topic position).2.topic_counts.set topic
          ((add_topic_and_update_state_and_coefficients m cc s topic position).2.topic_counts.getD topic 0 - 1)
        := hrem.2.1
    rw [h2, hgetD1, hcounts1, List.set_set]
    have harith : c + 1 - 1 = c := by ring
    rw [harith, hc0]
    exact set_getD_self _ _ _ hclen
  have hcc1 : (add_topic_and_update_state_and_coefficients m cc s topic position).1
      = cc.set topic ((m.alpha.getD topic 0 + ((c + 1 : ℤ) : ℚ)) / m.denom topic) := rfl
  have hcc2 : (remove_topic_and_update_state_and_coefficients m
        (add_topic_and_update_state_and_coefficients m cc s topic position).1
        (add_topic_and_update_state_and_coefficients m cc s topic position).2 topic).1
      = (add_topic_and_update_state_and_coefficients m cc s topic position).1.set topic
        ((m.alpha.getD topic 0 +
          (((add_topic_and_update_state_and_coefficients m cc s topic position).2.topic_counts.getD topic 0
            + (-1) : ℤ) : ℚ)) / m.denom topic) := rfl
  have hccres : (remove_topic_and_update_state_and_coefficients m
        (add_topic_and_update_state_and_coefficients m cc s topic position).1
        (add_topic_and_update_state_and_coefficients m cc s topic position).2 topic).1 = cc := by
    rw [hcc2, hgetD1, hcc1, List.set_set]
    have harith : c + 1 + (-1) = c := by ring
    rw [harith]
    have hval : (m.alpha.getD topic 0 + ((c : ℤ) : ℚ)) / m.denom topic = cc.getD topic 0 := by
      rw [h.coeff topic ht, hc0]
    rw [hval]
    exact set_getD_self _ _ _ hcclen
  haveI : IsAntisymm ℤ (· < ·) :=
    ⟨fun a b h1 h2 => absurd (lt_trans h1 h2) (lt_irrefl a)⟩
  have hmemEq : ∀ x : ℤ, x ∈ (remove_topic_and_update_state_and_coefficients m
        (add_topic_and_update_state_and_coefficients m cc s topic position).1
        (add_topic_and_update_state_and_coefficients m cc s topic position).2 topic).2.topic_index.take
      (remove_topic_and_update_state_and_coefficients m
        (add_topic_and_update_state_and_coefficients m cc s topic position).1
        (add_topic_and_update_state_and_coefficients m cc s topic position).2 topic).2.non_zero_topics ↔
      x ∈ s.topic_index.take s.non_zero_topics := by
    intro x
    rw [hS2.mem x, h.mem x, hcounts2]
  have hprefix : (remove_topic_and_update_state_and_coefficients m
        (add_topic_and_update_state_and_coefficients m cc s topic position).1
        (add_topic_and_update_state_and_coefficients m cc s topic position).2 topic).2.topic_index.take
      (remove_topic_and_update_state_and_coefficients m
        (add_topic_and_update_state_and_coefficients m cc s topic position).1
        (add_topic_and_update_state_and_coefficients m cc s topic position).2 topic).2.non_zero_topics
      = s.topic_index.take s.non_zero_topics := by
    refine List.eq_of_perm_of_sorted ?_ hS2.sorted h.sorted
    exact (List.perm_ext_iff_of_nodup hS2.sorted.nodup h.sorted.nodup).mpr hmemEq
  refine ⟨hcounts2, hprefix, ?_, hccres⟩
  have h1 := hS2.nzt_le
  have h2 := hS2.ti_len
  have h3 := h.nzt_le
  have h4 := h.ti_len
  have h5 := congrArg List.length hprefix
  rw [List.length_take, List.length_take] at h5
  omega

theorem C8_add_then_remove_restores_witness :
    (remove_topic_and_update_state_and_coefficients exModel
        (add_topic_and_update_state_and_coefficients exModel exModel.cachedCoefficients0
          (initialLocalState exModel 2) 1 0).1
        (add_topic_and_update_state_and_coefficients exModel exModel.cachedCoefficients0
          (initialLocalState exModel 2) 1 0).2 1).2.topic_counts
      = (initialLocalState exModel 2).topic_counts :=
  (C8_add_then_remove_restores exModel exModel.cachedCoefficients0
    (initialLocalState exModel 2) 1 0 (SInv_initial exModel 2) (by decide)).1

theorem termLoop_exhaust : ∀ (l : List ℚ) (sample : ℚ) (t : ℤ),
    (∀ q ∈ l, 0 ≤ q) → 0 < sample - l.sum → termLoop l sample t = none := by
  intro l
  induction l with
  | nil =>
    intro sample t _ hex
    rw [List.sum_nil, sub_zero] at hex
    rw [termLoop, if_pos hex]
  | cons q rest ih =>
    intro sample t hnn hex
    rw [List.sum_cons] at hex
    have hq : 0 ≤ q := hnn q (List.mem_cons_self _ _)
    have hsum : 0 ≤ rest.sum := List.sum_nonneg (fun x hx => hnn x (List.mem_cons_of_mem _ hx))
    rw [termLoop, if_pos (by linarith)]
    exact ih (sample - q) (t + 1) (fun x hx => hnn x (List.mem_cons_of_mem _ hx))
      (by linarith)

theorem betaLoop_exhaust (m : Model) (lc : List ℤ) : ∀ (l : List ℤ) (sample : ℚ),
    (∀ topic ∈ l, 0 ≤ topic ∧ topic.toNat < lc.length ∧
      topic.toNat < m.topic_counts.length) →
    (∀ topic ∈ l, 0 ≤ (lc.getD topic.toNat 0 : ℚ) /
      ((m.topic_counts.getD topic.toNat 0 : ℚ) + m.beta_sum)) →
    0 < sample - (l.map (fun topic => (lc.getD topic.toNat 0 : ℚ) /
      ((m.topic_counts.getD topic.toNat 0 : ℚ) + m.beta_sum))).sum →
    betaLoop m lc l sample = some (-1) := by
  intro l
  induction l with
  | nil => intro sample _ _ _; rfl
  | cons topic rest ih =>
    intro sample hvalid hnn hex
    rw [List.map_cons, List.sum_cons] at hex
    have hq : 0 ≤ (lc.getD topic.toNat 0 : ℚ) /
        ((m.topic_counts.getD topic.toNat 0 : ℚ) + m.beta_sum) :=
      hnn topic (List.mem_cons_self _ _)
    have hsum : 0 ≤ (rest.map (fun topic => (lc.getD topic.toNat 0 : ℚ) /
        ((m.topic_counts.getD topic.toNat 0 : ℚ) + m.beta_sum))).sum := by
      refine List.sum_nonneg ?_
      intro x hx
      obtain ⟨y, hy, rfl⟩ := List.mem_map.mp hx
      exact hnn y (List.mem_cons_of_mem _ hy)
    rw [betaLoop, if_pos (hvalid topic (List.mem_cons_self _ _))]
    simp only
    rw [if_neg (by linarith)]
    exact ih (sample - (lc.getD topic.toNat 0 : ℚ) /
        ((m.topic_counts.getD topic.toNat 0 : ℚ) + m.beta_sum))
      (fun x hx => hvalid x (List.mem_cons_of_mem _ hx))
      (fun x hx => hnn x (List.mem_cons_of_mem _ hx))
      (by linarith)

theorem smoothLoop_exhaust (m : Model) : ∀ (l : List (ℚ × ℤ)) (sample : ℚ) (t : ℤ),
    (∀ p ∈ l, 0 ≤ p.1 / ((p.2 : ℚ) + m.beta_sum)) →
    0 < sample - (l.map (fun p => p.1 / ((p.2 : ℚ) + m.beta_sum))).sum →
    smoothLoop m l sample t = none := by
  intro l
  induction l with
  | nil => intro sample t _ _; rfl
  | cons p rest ih =>
    intro sample t hnn hex
    obtain ⟨a, g⟩ := p
    rw [List.map_cons, List.sum_cons] at hex
    have hq : 0 ≤ a / ((g : ℚ) + m.beta_sum) := hnn (a, g) (List.mem_cons_self _ _)
    have hsum : 0 ≤ (rest.map (fun p => p.1 / ((p.2 : ℚ) + m.beta_sum))).sum := by
      refine List.sum_nonneg ?_
      intro x hx
      obtain ⟨y, hy, rfl⟩ := List.mem_map.mp hx
      exact hnn y (List.mem_cons_of_mem _ hy)
    rw [smoothLoop]
    simp only at hex ⊢
    rw [if_pos (by linarith)]
    exact ih (sample - a / ((g : ℚ) + m.beta_sum)) (t + 1)
      (fun x hx => hnn x (List.mem_cons_of_mem _ hx)) (by linarith)

/-- C4 (amended): when a scan of `sample_new_topic` exhausts its
candidates with a still-positive remainder, only the topic-beta branch
returns the failure value `-1`; the topic-term branch and the
smoothing-only branch instead walk past the end of their arrays — the
unchecked `.at(topic)` / `alpha_.at(new_topic)` accesses throw
`std::out_of_range` (modeled as `none`) rather than returning `-1`. -/
theorem C4_sample_exhaustion_behavior (m : Model) (s : LocalState) (u : ℚ) :
    (u * (m.smoothing_only_mass + s.topic_beta_mass + s.topic_term_mass)
        < s.topic_term_mass →
     (∀ q ∈ s.topic_term_scores, 0 ≤ q) →
     0 < u * (m.smoothing_only_mass + s.topic_beta_mass + s.topic_term_mass)
        - s.topic_term_scores.sum →
     sample_new_topic m s u = none) ∧
    (¬ (u * (m.smoothing_only_mass + s.topic_beta_mass + s.topic_term_mass)
        < s.topic_term_mass) →
     u * (m.smoothing_only_mass + s.topic_beta_mass + s.topic_term_mass)
        - s.topic_term_mass < s.topic_beta_mass →
     s.non_zero_topics ≤ s.topic_index.length →
     (∀ topic ∈ s.topic_index.take s.non_zero_topics,
       0 ≤ topic ∧ topic.toNat < s.topic_counts.length ∧
         topic.toNat < m.topic_counts.length) →
     (∀ topic ∈ s.topic_index.take s.non_zero_topics,
       0 ≤ (s.topic_counts.getD topic.toNat 0 : ℚ) /
         ((m.topic_counts.getD topic.toNat 0 : ℚ) + m.beta_sum)) →
     0 < (u * (m.smoothing_only_mass + s.topic_beta_mass + s.topic_term_mass)
        - s.topic_term_mass) / m.beta
        - ((s.topic_index.take s.non_zero_topics).map
            (fun topic => (s.topic_counts.getD topic.toNat 0 : ℚ) /
              ((m.topic_counts.getD topic.toNat 0 : ℚ) + m.beta_sum))).sum →
     sample_new_topic m s u = some (-1)) ∧
    (¬ (u * (m.smoothing_only_mass + s.topic_beta_mass + s.topic_term_mass)
        < s.topic_term_mass) →
     ¬ (u * (m.smoothing_only_mass + s.topic_beta_mass + s.topic_term_mass)
        - s.topic_term_mass < s.topic_beta_mass) →
     (∀ p ∈ m.alpha.zip m.topic_counts, 0 ≤ p.1 / ((p.2 : ℚ) + m.beta_sum)) →
     0 < (u * (m.smoothing_only_mass + s.topic_beta_mass + s.topic_term_mass)
        - s.topic_term_mass - s.topic_beta_mass) / m.beta
        - ((m.alpha.zip m.topic_counts).map
            (fun p => p.1 / ((p.2 : ℚ) + m.beta_sum))).sum →
     sample_new_topic m s u = none) := by
  refine ⟨?_, ?_, ?_⟩
  · intro hsel hnn hex
    simp only [sample_new_topic]
    rw [if_pos hsel]
    exact termLoop_exhaust _ _ _ hnn hex
  · intro hsel1 hsel2 hlen hvalid hnn hex
    simp only [sample_new_topic]
    rw [if_neg hsel1, if_pos hsel2, if_pos hlen]
    exact betaLoop_exhaust m s.topic_counts _ _ hvalid hnn hex
  · intro hsel1 hsel2 hnn hex
    simp only [sample_new_topic]
    rw [if_neg hsel1, if_neg hsel2]
    exact smoothLoop_exhaust m _ _ _ hnn hex

/-- C4 counterexample: exhausting the topic-term scan does not return
`-1` — the source's `state.topic_term_scores.at(topic)` walks past the
end of the array and throws (modeled `none`), refuting the claim that
every exhausted branch returns the failure value. -/
theorem C4_term_exhaustion_crashes :
    sample_new_topic c4model c4state (1/2) = none := by
  simp only [sample_new_topic]
  rw [if_pos (by norm_num [c4model, c4state, Model.smoothing_only_mass, Model.denom,
    Model.beta_sum, List.range_succ, List.getD])]
  refine termLoop_exhaust _ _ _ ?_ ?_
  · intro q hq
    rw [show c4state.topic_term_scores = [0] from rfl] at hq
    rcases List.mem_singleton.mp hq with rfl
    exact le_refl 0
  · norm_num [c4model, c4state, Model.smoothing_only_mass, Model.denom, Model.beta_sum,
      List.range_succ, List.getD]

theorem C4_sample_exhaustion_behavior_witness :
    sample_new_topic c4model c4state (3/4) = none := by
  refine (C4_sample_exhaustion_behavior c4model c4state (3/4)).1 ?_ ?_ ?_
  · norm_num [c4model, c4state, Model.smoothing_only_mass, Model.denom, Model.beta_sum,
      List.range_succ, List.getD]
  · intro q hq
    rw [show c4state.topic_term_scores = [0] from rfl] at hq
    rcases List.mem_singleton.mp hq with rfl
    exact le_refl 0
  · norm_num [c4model, c4state, Model.smoothing_only_mass, Model.denom, Model.beta_sum,
      List.range_succ, List.getD]

/-- C5: when `sample_new_topic` reports a failed draw (`-1`), the caller
substitutes a fallback: in the resampling sweep the position's previous
topic is re-added at the position; at the frontier the last topic index
`n_topics - 1` is added at the limit (and the position is still scored). -/
theorem C5_failed_draw_fallback_policy (m : Model) (draws : ℕ → ℚ) (st : GwpSt)
    (position limit : ℕ) (tok : ℤ) (hoov : ¬ oov m tok) :
    (sample_new_topic m
        (update_topic_scores
          (remove_topic_and_update_state_and_coefficients m st.cached_coefficients
            (setWordType m st.state tok)
            ((setWordType m st.state tok).doc_topics.getD position 0).toNat).1
          (remove_topic_and_update_state_and_coefficients m st.cached_coefficients
            (setWordType m st.state tok)
            ((setWordType m st.state tok).doc_topics.getD position 0).toNat).2)
        (draws st.rng_index) = some (-1) →
      sweepStep m draws st position tok = some { st with
        state := (add_topic_and_update_state_and_coefficients m
          (remove_topic_and_update_state_and_coefficients m st.cached_coefficients
            (setWordType m st.state tok)
            ((setWordType m st.state tok).doc_topics.getD position 0).toNat).1
          (update_topic_scores
            (remove_topic_and_update_state_and_coefficients m st.cached_coefficients
              (setWordType m st.state tok)
              ((setWordType m st.state tok).doc_topics.getD position 0).toNat).1
            (remove_topic_and_update_state_and_coefficients m st.cached_coefficients
              (setWordType m st.state tok)
              ((setWordType m st.state tok).doc_topics.getD position 0).toNat).2)
          ((setWordType m st.state tok).doc_topics.getD position 0).toNat position).2
        cached_coefficients := (add_topic_and_update_state_and_coefficients m
          (remove_topic_and_update_state_and_coefficients m st.cached_coefficients
            (setWordType m st.state tok)
            ((setWordType m st.state tok).doc_topics.getD position 0).toNat).1
          (update_topic_scores
            (remove_topic_and_update_state_and_coefficients m st.cached_coefficients
              (setWordType m st.state tok)
              ((setWordType m st.state tok).doc_topics.getD position 0).toNat).1
            (remove_topic_and_update_state_and_coefficients m st.cached_coefficients
              (setWordType m st.state tok)
              ((setWordType m st.state tok).doc_topics.getD position 0).toNat).2)
          ((setWordType m st.state tok).doc_topics.getD position 0).toNat position).1
        rng_index := st.rng_index + 1 }) ∧
    (sample_new_topic m
        (update_topic_scores st.cached_coefficients (setWordType m st.state tok))
        (draws st.rng_index) = some (-1) →
      frontierStep m draws st limit tok = some {
        state := (add_topic_and_update_state_and_coefficients m st.cached_coefficients
          (update_topic_scores st.cached_coefficients (setWordType m st.state tok))
          ((m.n_topics : ℤ) - 1).toNat limit).2
        cached_coefficients := (add_topic_and_update_state_and_coefficients m
          st.cached_coefficients
          (update_topic_scores st.cached_coefficients (setWordType m st.state tok))
          ((m.n_topics : ℤ) - 1).toNat limit).1
        rng_index := st.rng_index + 1
        tokens_so_far := st.tokens_so_far + 1
        word_probabilities := st.word_probabilities.set limit
          (st.word_probabilities.getD limit 0 +
            (m.smoothing_only_mass +
              (update_topic_scores st.cached_coefficients
                (setWordType m st.state tok)).topic_beta_mass +
              (update_topic_scores st.cached_coefficients
                (setWordType m st.state tok)).topic_term_mass) /
            (m.alpha_sum + (st.tokens_so_far : ℚ))) }) := by
  constructor
  · intro hs
    rw [sweepStep, if_neg hoov]
    simp only
    rw [hs]
    rfl
  · intro hf
    rw [frontierStep, if_neg hoov]
    simp only
    rw [hf]
    rfl

theorem C5_failed_draw_fallback_policy_witness :
    sample_new_topic c5model
        (update_topic_scores c5st.cached_coefficients (setWordType c5model c5st.state 0))
        ((fun _ => (1/2 : ℚ)) c5st.rng_index) = some (-1) ∧
    frontierStep c5model (fun _ => (1/2 : ℚ)) c5st 0 0 ≠ none := by
  have hs : sample_new_topic c5model
      (update_topic_scores c5st.cached_coefficients (setWordType c5model c5st.state 0))
      ((fun _ => (1/2 : ℚ)) c5st.rng_index) = some (-1) := by
    norm_num [sample_new_topic, update_topic_scores, updateScoresLoop, setWordType,
      betaLoop, termLoop, smoothLoop, c5model, c5st, Model.smoothing_only_mass,
      Model.denom, Model.beta_sum, List.range_succ, List.getD]
  refine ⟨hs, ?_⟩
  rw [(C5_failed_draw_fallback_policy c5model (fun _ => (1/2 : ℚ)) c5st 0 0 0
    (by decide)).2 hs]
  simp

theorem sum_list_range (n : ℕ) (f : ℕ → ℚ) :
    ((List.range n).map f).sum = ∑ t ∈ Finset.range n, f t := by
  induction n with
  | zero => simp
  | succ k ih =>
    rw [Finset.sum_range_succ, List.range_succ, List.map_append, List.sum_append, ih]
    simp

theorem updateScoresLoop_mass (cc : List ℚ) :
    ∀ (l : List ℤ) (k index : ℕ) (scores : List ℚ) (mass : ℚ),
      k ≤ l.length →
      (∀ i, i < k → 0 < l.getD i 0) →
      (∀ i, k ≤ i → l.getD i 0 = 0) →
      (updateScoresLoop cc l index scores mass).2
        = mass + ∑ i ∈ Finset.range k, cc.getD (index + i) 0 * (l.getD i 0 : ℚ) := by
  intro l
  induction l with
  | nil =>
    intro k index scores mass hk _ _
    have hk0 : k = 0 := by
      rw [List.length_nil] at hk
      omega
    subst hk0
    rw [updateScoresLoop]
    simp
  | cons c rest ih =>
    intro k index scores mass hk hpos hzero
    cases k with
    | zero =>
      have hc : c = 0 := by
        have := hzero 0 (Nat.le_refl 0)
        simpa using this
      rw [updateScoresLoop, if_neg (by rw [hc]; exact lt_irrefl 0)]
      simp
    | succ k' =>
      have hc : 0 < c := by
        have := hpos 0 (Nat.succ_pos k')
        simpa using this
      rw [updateScoresLoop, if_pos hc]
      rw [ih k' (index + 1) (scores.set index (cc.getD index 0 * (c : ℚ)))
        (mass + cc.getD index 0 * (c : ℚ))
        (by rw [List.length_cons] at hk; omega)
        (fun i hi => hpos (i + 1) (by omega))
        (fun i hi => hzero (i + 1) (by omega))]
      rw [Finset.sum_range_succ']
      have hre : ∀ i : ℕ, cc.getD (index + 1 + i) 0 * ((rest.getD i 0 : ℤ) : ℚ)
          = cc.getD (index + (i + 1)) 0 * (((c :: rest).getD (i + 1) 0 : ℤ) : ℚ) := by
        intro i
        have h1 : index + 1 + i = index + (i + 1) := by omega
        rw [h1]
        rfl
      rw [Finset.sum_congr rfl (fun i _ => hre i)]
      have h0 : ((c :: rest).getD 0 0 : ℚ) = (c : ℚ) := rfl
      rw [h0]
      simp only [Nat.add_zero]
      ring

/-- C2: after any valid operation sequence from the fresh state followed
by a topic-score update for the current word, the incrementally
maintained `smoothing_only_mass + topic_beta_mass + topic_term_mass`
equals (exactly, in rational arithmetic) the total unnormalized mass over
all topics computed from scratch; and it is strictly positive whenever
every topic has positive prior mass.  The word's sparse profile must be
front-loaded (`k` positive entries followed by zeros), which is what the
source's scan-until-nonpositive loop assumes. -/
theorem C2_incremental_mass_invariant (m : Model) (docLen : ℕ)
    (ops : List (Bool × ℕ × ℕ)) (tok : ℤ) (k : ℕ)
    (hval : ValidOps m ops (m.cachedCoefficients0, initialLocalState m docLen))
    (hwlen : (m.type_topic_counts.getD tok.toNat []).length ≤ m.n_topics)
    (hk : k ≤ (m.type_topic_counts.getD tok.toNat []).length)
    (hpos : ∀ i, i < k → 0 < (m.type_topic_counts.getD tok.toNat []).getD i 0)
    (hzero : ∀ i, k ≤ i → (m.type_topic_counts.getD tok.toNat []).getD i 0 = 0) :
    m.smoothing_only_mass
      + (update_topic_scores
          (applyOps m ops (m.cachedCoefficients0, initialLocalState m docLen)).1
          (setWordType m
            (applyOps m ops (m.cachedCoefficients0, initialLocalState m docLen)).2
            tok)).topic_beta_mass
      + (update_topic_scores
          (applyOps m ops (m.cachedCoefficients0, initialLocalState m docLen)).1
          (setWordType m
            (applyOps m ops (m.cachedCoefficients0, initialLocalState m docLen)).2
            tok)).topic_term_mass
      = totalMass m (m.type_topic_counts.getD tok.toNat [])
          (applyOps m ops (m.cachedCoefficients0, initialLocalState m docLen)).2.topic_counts ∧
    (0 < m.n_topics → 0 < m.beta →
     (∀ t, t < m.n_topics → 0 < m.alpha.getD t 0) →
     (∀ t, 0 ≤ m.topic_counts.getD t 0) →
     0 < m.smoothing_only_mass
       + (update_topic_scores
           (applyOps m ops (m.cachedCoefficients0, initialLocalState m docLen)).1
           (setWordType m
             (applyOps m ops (m.cachedCoefficients0, initialLocalState m docLen)).2
             tok)).topic_beta_mass
       + (update_topic_scores
           (applyOps m ops (m.cachedCoefficients0, initialLocalState m docLen)).1
           (setWordType m
             (applyOps m ops (m.cachedCoefficients0, initialLocalState m docLen)).2
             tok)).topic_term_mass) := by
  have hS := applyOps_SInv m ops (m.cachedCoefficients0, initialLocalState m docLen)
    (SInv_initial m docLen) hval
  have hkn : k ≤ m.n_topics := le_trans hk hwlen
  have hwnn : ∀ t : ℕ, (0 : ℤ) ≤ (m.type_topic_counts.getD tok.toNat []).getD t 0 := by
    intro t
    rcases lt_or_ge t k with hlt | hge
    · exact le_of_lt (hpos t hlt)
    · rw [hzero t hge]
  have heq : m.smoothing_only_mass
      + (update_topic_scores
          (applyOps m ops (m.cachedCoefficients0, initialLocalState m docLen)).1
          (setWordType m
            (applyOps m ops (m.cachedCoefficients0, initialLocalState m docLen)).2
            tok)).topic_beta_mass
      + (update_topic_scores
          (applyOps m ops (m.cachedCoefficients0, initialLocalState m docLen)).1
          (setWordType m
            (applyOps m ops (m.cachedCoefficients0, initialLocalState m docLen)).2
            tok)).topic_term_mass
      = totalMass m (m.type_topic_counts.getD tok.toNat [])
          (applyOps m ops (m.cachedCoefficients0, initialLocalState m docLen)).2.topic_counts := by
    have hbm : (update_topic_scores
        (applyOps m ops (m.cachedCoefficients0, initialLocalState m docLen)).1
        (setWordType m
          (applyOps m ops (m.cachedCoefficients0, initialLocalState m docLen)).2
          tok)).topic_beta_mass
        = (applyOps m ops (m.cachedCoefficients0, initialLocalState m docLen)).2.topic_beta_mass := rfl
    have htm : (update_topic_scores
        (applyOps m ops (m.cachedCoefficients0, initialLocalState m docLen)).1
        (setWordType m
          (applyOps m ops (m.cachedCoefficients0, initialLocalState m docLen)).2
          tok)).topic_term_mass
        = (updateScoresLoop
            (applyOps m ops (m.cachedCoefficients0, initialLocalState m docLen)).1
            (m.type_topic_counts.getD tok.toNat []) 0
            (applyOps m ops (m.cachedCoefficients0, initialLocalState m docLen)).2.topic_term_scores
            0).2 := rfl
    rw [hbm, htm,
      updateScoresLoop_mass
        (applyOps m ops (m.cachedCoefficients0, initialLocalState m docLen)).1
        (m.type_topic_counts.getD tok.toNat []) k 0
        (applyOps m ops (m.cachedCoefficients0, initialLocalState m docLen)).2.topic_term_scores
        0 hk hpos hzero,
      hS.bmass, Model.smoothing_only_mass, sum_list_range]
    simp only [Nat.zero_add, zero_add]
    have hcongr : ∀ i ∈ Finset.range k,
        (applyOps m ops (m.cachedCoefficients0, initialLocalState m docLen)).1.getD i 0
          * ((m.type_topic_counts.getD tok.toNat []).getD i 0 : ℚ)
        = ((m.alpha.getD i 0
            + ((applyOps m ops (m.cachedCoefficients0, initialLocalState m docLen)).2.topic_counts.getD i 0 : ℚ))
          / m.denom i)
          * ((m.type_topic_counts.getD tok.toNat []).getD i 0 : ℚ) := by
      intro i hi
      rw [hS.coeff i (lt_of_lt_of_le (Finset.mem_range.mp hi) hkn)]
    have hvan : ∀ x ∈ Finset.range m.n_topics, x ∉ Finset.range k →
        ((m.alpha.getD x 0
            + ((applyOps m ops (m.cachedCoefficients0, initialLocalState m docLen)).2.topic_counts.getD x 0 : ℚ))
          / m.denom x)
          * ((m.type_topic_counts.getD tok.toNat []).getD x 0 : ℚ) = 0 := by
      intro x _ hx
      rw [hzero x (Nat.le_of_not_lt (fun hc => hx (Finset.mem_range.mpr hc)))]
      simp
    rw [(Finset.sum_congr rfl hcongr).trans
      (Finset.sum_subset (Finset.range_subset.mpr hkn) hvan)]
    rw [← Finset.sum_add_distrib, ← Finset.sum_add_distrib, totalMass]
    refine Finset.sum_congr rfl ?_
    intro t _
    rw [div_mul_eq_mul_div, div_add_div_same, div_add_div_same]
    congr 1
    ring
  refine ⟨heq, ?_⟩
  intro hn hb ha hg
  rw [heq, totalMass]
  refine Finset.sum_pos ?_ (by rw [Finset.nonempty_range_iff]; omega)
  intro t ht
  have htn := Finset.mem_range.mp ht
  have hd : 0 < m.denom t := by
    rw [Model.denom, Model.beta_sum]
    have h1 : (0 : ℚ) ≤ (m.topic_counts.getD t 0 : ℚ) := by
      exact_mod_cast hg t
    have h2 : (0 : ℚ) < (m.n_topics : ℚ) * m.beta := by
      refine mul_pos ?_ hb
      exact_mod_cast hn
    linarith
  refine div_pos (mul_pos ?_ ?_) hd
  · have h1 : (0 : ℚ) ≤
        ((applyOps m ops (m.cachedCoefficients0, initialLocalState m docLen)).2.topic_counts.getD t 0 : ℚ) := by
      exact_mod_cast hS.nonneg t
    have h2 := ha t htn
    linarith
  · have h1 : (0 : ℚ) ≤ ((m.type_topic_counts.getD tok.toNat []).getD t 0 : ℚ) := by
      exact_mod_cast hwnn t
    linarith

theorem C2_incremental_mass_invariant_witness :
    exModel.smoothing_only_mass
      + (update_topic_scores
          (applyOps exModel [] (exModel.cachedCoefficients0, initialLocalState exModel 2)).1
          (setWordType exModel
            (applyOps exModel [] (exModel.cachedCoefficients0, initialLocalState exModel 2)).2
            0)).topic_beta_mass
      + (update_topic_scores
          (applyOps exModel [] (exModel.cachedCoefficients0, initialLocalState exModel 2)).1
          (setWordType exModel
            (applyOps exModel [] (exModel.cachedCoefficients0, initialLocalState exModel 2)).2
            0)).topic_term_mass
      = totalMass exModel (exModel.type_topic_counts.getD (0 : ℤ).toNat [])
          (applyOps exModel [] (exModel.cachedCoefficients0, initialLocalState exModel 2)).2.topic_counts :=
  (C2_incremental_mass_invariant exModel 2 [] 0 1 (by decide) (by decide) (by decide)
    (fun i hi => by
      have h0 : i = 0 := by omega
      subst h0
      decide)
    (fun i hi => by
      rcases i with _ | _ | n
      · omega
      · rfl
      · rfl)).1
